import Mathlib

/-!
Verification of the session-semantics replicated register
(`session_semantics/server/server.go`, `session_semantics/vectorclock/vectorclock.go`,
`session_semantics/client/client.go`) against its specification.

Modelling conventions, used throughout:
* Go `uint64` is modelled as `Nat` (no property below exercises wrap-around).
* A Go `nil` slice has length 0 and is indistinguishable from an empty slice
  by `len` and indexing, so it is modelled as `[]`.
* A Go panic (index out of range, unknown enum value in a `switch` default)
  is modelled as `none`; functions that can panic return `Option`.
* `sort.Slice` on slices of fewer than 12 elements runs a plain in-place
  insertion sort (`insertionSort` inside `pdqsort`), deterministically:
  element `i` is repeatedly swapped with its left neighbour while
  `less(j, j-1)` holds.  `sortOps` below implements exactly that algorithm,
  so it agrees with Go on every slice of fewer than 12 elements (every list
  arising in the theorems below is far shorter).
* The session-type enum is an open `uint64` in Go (the `switch` has a
  `default` that panics), so it is modelled as `Nat` with named constants.
-/

namespace SessionSemantics

/-! ### The vectorclock package -/

/-- Go `vectorclock.CompareVersionVector`: walks the indices of `v1`,
returns `false` at the first index where `v1[i] < v2[i]`, true if the walk
finishes; reading `v2[i]` with `v2` exhausted is an index-out-of-range
panic (`none`). -/
def CompareVersionVector : List Nat → List Nat → Option Bool
  | [], _ => some true
  | _ :: _, [] => none
  | a :: v1, b :: v2 => if a < b then some false else CompareVersionVector v1 v2

/-- Inner loop of Go `vectorclock.GetMaxVersionVector`: fold one further
vector `v` into the accumulator `mx`, taking the pointwise maximum over the
indices of `v`; reading `mx[j]` with `mx` exhausted panics. -/
def mergeMaxVector : List Nat → List Nat → Option (List Nat)
  | mx, [] => some mx
  | [], _ :: _ => none
  | m :: mx, v :: vs => (mergeMaxVector mx vs).map (fun r => max m v :: r)

/-- Go `vectorclock.GetMaxVersionVector`: `nil` (= `[]`) on the empty list,
otherwise a copy of the first vector merged with every later one. -/
def GetMaxVersionVector : List (List Nat) → Option (List Nat)
  | [] => some []
  | v :: rest => rest.foldlM mergeMaxVector v

/-- Go `vectorclock.ConcurrentVersionVectors`: neither vector dominates the
other; `&&` short-circuits, so the second comparison only runs when the
first returned `false`. -/
def ConcurrentVersionVectors (v1 v2 : List Nat) : Option Bool :=
  match CompareVersionVector v1 v2 with
  | none => none
  | some true => some false
  | some false =>
    match CompareVersionVector v2 v1 with
    | none => none
    | some c => some (!c)

/-! ### The server package: data -/

/-- Go `server.OperationType` (`Read = 0`, `Write = 1`). -/
inductive OpKind where
  | Read : OpKind
  | Write : OpKind
deriving DecidableEq

/-- Go `server.Operation`. -/
structure Operation where
  OperationType : OpKind
  VersionVector : List Nat
  TieBreaker : Nat
  Data : Nat
deriving DecidableEq

/-- Go `server.SessionType` constant `Causal = 0`. -/
def Causal : Nat := 0

/-- Go `server.SessionType` constant `MonotonicReads = 1`. -/
def MonotonicReads : Nat := 1

/-- Go `server.SessionType` constant `MonotonicWrites = 2`. -/
def MonotonicWrites : Nat := 2

/-- Go `server.SessionType` constant `ReadYourWrites = 3`. -/
def ReadYourWrites : Nat := 3

/-- Go `server.SessionType` constant `WritesFollowReads = 4`. -/
def WritesFollowReads : Nat := 4

/-- Go `server.ClientRequest`. -/
structure ClientRequest where
  OperationType : OpKind
  SessionType : Nat
  Data : Nat
  ReadVector : List Nat
  WriteVector : List Nat
deriving DecidableEq

/-- Go `server.ClientReply`. -/
structure ClientReply where
  Succeeded : Bool
  OperationType : OpKind
  Data : Nat
  ReadVector : List Nat
  WriteVector : List Nat
deriving DecidableEq

/-- Go `server.GossipRequest`. -/
structure GossipRequest where
  ServerId : Nat
  Operations : List Operation
deriving DecidableEq

/-- Go `server.Server`.  `Peers` keeps only the length of the Go peer-
connection slice: the connections themselves are opaque network handles and
the server logic only ever reads `len(s.Peers)` and peer indices. -/
structure Server where
  Id : Nat
  Peers : Nat
  VectorClock : List Nat
  OperationsPerformed : List Operation
  MyOperations : List Operation
  PendingOperations : List Operation
  Data : Nat
deriving DecidableEq

/-- Go `server.New` (without spawning the gossip goroutine):
`make([]uint64, len(peers))` is the all-zero clock. -/
def New (id : Nat) (peers : Nat) : Server :=
  { Id := id, Peers := peers, VectorClock := List.replicate peers 0,
    OperationsPerformed := [], MyOperations := [], PendingOperations := [], Data := 0 }

/-! ### The server package: functions -/

/-- Go `server.DependencyCheck`: the five-way `switch` on the session type;
the `default` branch panics. -/
def DependencyCheck (vectorClock : List Nat) (request : ClientRequest) : Option Bool :=
  if request.SessionType = Causal then
    match CompareVersionVector vectorClock request.WriteVector with
    | none => none
    | some false => some false
    | some true => CompareVersionVector vectorClock request.ReadVector
  else if request.SessionType = MonotonicReads then
    CompareVersionVector vectorClock request.ReadVector
  else if request.SessionType = MonotonicWrites then
    CompareVersionVector vectorClock request.WriteVector
  else if request.SessionType = ReadYourWrites then
    CompareVersionVector vectorClock request.WriteVector
  else if request.SessionType = WritesFollowReads then
    CompareVersionVector vectorClock request.ReadVector
  else none

/-- Go `server.operationsGetMaxVersionVector`: `nil` (= `[]`) on the empty
list, otherwise the running pointwise maximum of the version vectors. -/
def operationsGetMaxVersionVector : List Operation → Option (List Nat)
  | [] => some []
  | op :: rest => rest.foldlM (fun mx o => mergeMaxVector mx o.VersionVector) op.VersionVector

/-- Go `server.ProcessClientRequest`.  The read path's first `if` block
(empty log) assigns reply fields but does not return, so the unconditional
assignments that follow it are the net effect and the block is dead; only
the final field values are modelled.  The write path's
`s.VectorClock[s.Id] += 1` panics when `s.Id` is out of range. -/
def ProcessClientRequest (s : Server) (request : ClientRequest) :
    Option (Server × ClientReply) :=
  match DependencyCheck s.VectorClock request with
  | none => none
  | some false =>
    some (s, { Succeeded := false, OperationType := OpKind.Read, Data := 0,
               ReadVector := [], WriteVector := [] })
  | some true =>
    if request.OperationType = OpKind.Read then
      match GetMaxVersionVector [request.ReadVector, s.VectorClock] with
      | none => none
      | some rv =>
        some (s, { Succeeded := true, OperationType := OpKind.Read, Data := s.Data,
                   ReadVector := rv, WriteVector := request.WriteVector })
    else
      if s.Id < s.VectorClock.length then
        let vc := s.VectorClock.set s.Id (s.VectorClock.getD s.Id 0 + 1)
        let op : Operation := { OperationType := OpKind.Write, VersionVector := vc,
                                TieBreaker := s.Id, Data := request.Data }
        some ({ s with VectorClock := vc,
                       OperationsPerformed := s.OperationsPerformed ++ [op],
                       MyOperations := s.MyOperations ++ [op],
                       Data := request.Data },
              { Succeeded := true, OperationType := OpKind.Write, Data := request.Data,
                ReadVector := request.ReadVector, WriteVector := vc })
      else none

/-- Loop body of Go `server.oneOffVersionVector`, indexed by the loop
counter `i` and the `ct` flag.  At `i == serverId` the iteration is skipped
before `v2[i]` is read; otherwise reading `v2[i]` past its end panics. -/
def oneOffAux (serverId : Nat) : Nat → Bool → List Nat → List Nat → Option Bool
  | _, _, [], _ => some true
  | i, ct, a :: v1, v2 =>
    if i = serverId then oneOffAux serverId (i+1) ct v1 v2.tail
    else
      match v2 with
      | [] => none
      | b :: v2' =>
        if ct = true ∧ a + 1 = b then oneOffAux serverId (i+1) false v1 v2'
        else if a < b then some false
        else oneOffAux serverId (i+1) ct v1 v2'

/-- Go `server.oneOffVersionVector`. -/
def oneOffVersionVector (serverId : Nat) (v1 v2 : List Nat) : Option Bool :=
  oneOffAux serverId 0 true v1 v2

/-- Go `server.compareOperations`: a result of `true` means `o1` orders
after (is greater than) `o2`. -/
def compareOperations (o1 o2 : Operation) : Option Bool :=
  match ConcurrentVersionVectors o1.VersionVector o2.VersionVector with
  | none => none
  | some true => some (o2.TieBreaker < o1.TieBreaker)
  | some false => CompareVersionVector o1.VersionVector o2.VersionVector

/-- Go `server.equalOperations`: field-by-field equality. -/
def equalOperations (x y : Operation) : Bool :=
  decide (x.OperationType = y.OperationType) && decide (x.VersionVector = y.VersionVector)
    && decide (x.TieBreaker = y.TieBreaker) && decide (x.Data = y.Data)

/-- Inner loop of Go's insertion sort under the comparator
`less(i, j) = compareOperations(s[j], s[i])`: the freshly appended element
`a` is swapped leftwards past each neighbour `x` while
`compareOperations x a` is true.  The already-sorted prefix is passed
reversed (its last element first). -/
def bubbleLeft (a : Operation) : List Operation → Option (List Operation)
  | [] => some [a]
  | x :: rest =>
    match compareOperations x a with
    | none => none
    | some true => (bubbleLeft a rest).map (fun r => x :: r)
    | some false => some (a :: x :: rest)

/-- Go `sort.Slice(s, func(i, j int) bool { return compareOperations(s[j], s[i]) })`
for slices of fewer than 12 elements: in-place insertion sort, processing
elements left to right and bubbling each into the reversed sorted prefix. -/
def sortOps (l : List Operation) : Option (List Operation) :=
  (l.foldlM (fun revAcc a => bubbleLeft a revAcc) []).map List.reverse

/-- Compaction loop of Go `server.removeDuplicateOperationsAndSort`: keep
`s[curr]` exactly when it differs from the original `s[curr-1]`. -/
def dedupAdjAux (prev : Operation) : List Operation → List Operation
  | [] => []
  | b :: rest =>
    if equalOperations prev b then dedupAdjAux b rest else b :: dedupAdjAux b rest

/-- Go `server.removeDuplicateOperationsAndSort`: sort, then drop each
element equal to its immediate predecessor in the sorted array. -/
def removeDuplicateOperationsAndSort (s : List Operation) : Option (List Operation) :=
  if s.length < 1 then some s
  else
    match sortOps s with
    | none => none
    | some [] => some []
    | some (a :: rest) => some (a :: dedupAdjAux a rest)

/-- Go `server.mergePendingOperations`: append, sort, then
`removeDuplicateOperationsAndSort` (which sorts again). -/
def mergePendingOperations (l1 l2 : List Operation) : Option (List Operation) :=
  match sortOps (l1 ++ l2) with
  | none => none
  | some output => removeDuplicateOperationsAndSort output

/-- Admission loop of Go `server.ReceiveGossip`: walk the merged pending
list; drop an operation already covered by `latest`, apply a one-off
admissible operation (recomputing `latest` over the grown log), stop at the
first operation that is neither.  Returns the grown log, the final
`latest`, and the unconsumed suffix of the pending list. -/
def applyPendingLoop (serverId : Nat) :
    List Operation → List Operation → List Nat →
    Option (List Operation × List Nat × List Operation)
  | [], performed, latest => some (performed, latest, [])
  | op :: rest, performed, latest =>
    match CompareVersionVector latest op.VersionVector with
    | none => none
    | some true => applyPendingLoop serverId rest performed latest
    | some false =>
      match oneOffVersionVector serverId latest op.VersionVector with
      | none => none
      | some true =>
        match operationsGetMaxVersionVector (performed ++ [op]) with
        | none => none
        | some latest' => applyPendingLoop serverId rest (performed ++ [op]) latest'
      | some false => some (performed, latest, op :: rest)

/-- Go `server.ReceiveGossip`. -/
def ReceiveGossip (s : Server) (request : GossipRequest) : Option Server :=
  if request.Operations = [] then some s
  else
    match mergePendingOperations request.Operations s.PendingOperations with
    | none => none
    | some pending =>
      match
        (if s.OperationsPerformed = [] then some (List.replicate s.Peers 0)
         else operationsGetMaxVersionVector s.OperationsPerformed) with
      | none => none
      | some latest =>
        match applyPendingLoop s.Id pending s.OperationsPerformed latest with
        | none => none
        | some (performed, _, pendingRest) =>
          match sortOps performed with
          | none => none
          | some sorted =>
            match sorted.getLast? with
            | none => some { s with PendingOperations := pendingRest,
                                    OperationsPerformed := sorted }
            | some lastOp =>
              match operationsGetMaxVersionVector sorted with
              | none => none
              | some vc =>
                some { s with PendingOperations := pendingRest,
                              OperationsPerformed := sorted,
                              Data := lastOp.Data,
                              VectorClock := vc }

/-- One iteration of the loop body of Go `server.sendGossip` (after the
sleep): if `MyOperations` is empty nothing happens; otherwise a
`GossipRequest` carrying `s.MyOperations` is dispatched to every peer index
other than `s.Id`.  The server state is returned unchanged: the Go loop
never writes to `s`. -/
def sendGossipTick (s : Server) : List (Nat × GossipRequest) × Server :=
  if s.MyOperations = [] then ([], s)
  else
    (((List.range s.Peers).filter (fun i => ¬ i = s.Id)).map
       (fun i => (i, { ServerId := s.Id, Operations := s.MyOperations })), s)

/-- Session client step (`client.writeToServer` / `client.readFromServer`):
on a successful reply the client overwrites its session vectors with the
reply's vectors. -/
def clientStoreReply (readVector writeVector : List Nat) (reply : ClientReply) :
    List Nat × List Nat :=
  if reply.Succeeded then (reply.ReadVector, reply.WriteVector)
  else (readVector, writeVector)


/-! ### Specification-side definitions -/

/-- Coordinatewise domination `v1 ≥ v2` for vectors read with default 0
(for equal-length vectors this is the spec's `VC_a ≥ VC_b`). -/
def Dominates (v1 v2 : List Nat) : Prop :=
  ∀ i < v2.length, v2.getD i 0 ≤ v1.getD i 0

instance (v1 v2 : List Nat) : Decidable (Dominates v1 v2) :=
  Nat.decidableBallLT _ _

/-- Spec wording of one-off admissibility (§4.2 / claim C1): for every
index `i ≠ op.origin`, `cur[i] ≥ op.vc[i]`. -/
def specDirectlyAdmissible (origin : Nat) (cur vc : List Nat) : Prop :=
  ∀ i < cur.length, i ≠ origin → vc.getD i 0 ≤ cur.getD i 0

instance (origin : Nat) (cur vc : List Nat) :
    Decidable (specDirectlyAdmissible origin cur vc) :=
  Nat.decidableBallLT _ _

/-- Pointwise maximum of the version vectors of a list of operations at one
coordinate. -/
def vcMaxAt (ops : List Operation) (i : Nat) : Nat :=
  (ops.map (fun o => o.VersionVector.getD i 0)).foldr max 0

/-- Pointwise maximum of the version vectors of a list of operations, as a
length-`n` vector (the spec's `max_pointwise({op.vc : op in applied_log})`). -/
def maxPointwise (n : Nat) (ops : List Operation) : List Nat :=
  (List.range n).map (vcMaxAt ops)

/-- Convenience constructor for client requests. -/
def mkRequest (k : OpKind) (st : Nat) (d : Nat) (rv wv : List Nat) : ClientRequest :=
  { OperationType := k, SessionType := st, Data := d, ReadVector := rv, WriteVector := wv }

/-! ### Concrete scenario S3 (two concurrent writes, claim C2) -/

/-- Operation created by the S3 write of 100 at replica 0. -/
def op100 : Operation :=
  { OperationType := OpKind.Write, VersionVector := [1,0,0], TieBreaker := 0, Data := 100 }

/-- Operation created by the S3 write of 200 at replica 1. -/
def op200 : Operation :=
  { OperationType := OpKind.Write, VersionVector := [0,1,0], TieBreaker := 1, Data := 200 }

/-- Replica 0 after accepting the S3 write of 100. -/
def s3r0 : Server :=
  { New 0 3 with VectorClock := [1,0,0], OperationsPerformed := [op100],
                 MyOperations := [op100], Data := 100 }

/-- Replica 1 after accepting the S3 write of 200. -/
def s3r1 : Server :=
  { New 1 3 with VectorClock := [0,1,0], OperationsPerformed := [op200],
                 MyOperations := [op200], Data := 200 }

/-- Gossip request carrying replica 0's local operations. -/
def s3gossip0 : GossipRequest := { ServerId := 0, Operations := [op100] }

/-- Gossip request carrying replica 1's local operations. -/
def s3gossip1 : GossipRequest := { ServerId := 1, Operations := [op200] }

/-- Common final state of the S3 scenario (fields other than identity):
applied log ascending `[op100, op200]`, value 200, clock `[1,1,0]`. -/
def s3final (s : Server) (my : List Operation) : Server :=
  { s with VectorClock := [1,1,0], OperationsPerformed := [op100, op200],
           MyOperations := my, PendingOperations := [], Data := 200 }

/-! ### Concrete scenario S6 (one-off admission, claim C6) -/

/-- First S6 operation, `vc = [1,0,0]`, origin 0. -/
def s6op1 : Operation :=
  { OperationType := OpKind.Write, VersionVector := [1,0,0], TieBreaker := 0, Data := 7 }

/-- Second S6 operation, `vc = [2,0,0]`, origin 0. -/
def s6op2 : Operation :=
  { OperationType := OpKind.Write, VersionVector := [2,0,0], TieBreaker := 0, Data := 8 }

/-! ### Concrete counterexample state for claim C7 -/

/-- Cycle operation `X`: `vc = [1,0,1]`, origin 0 (a write at replica 0
issued after seeing replica 2's first write). -/
def c7opX : Operation :=
  { OperationType := OpKind.Write, VersionVector := [1,0,1], TieBreaker := 0, Data := 17 }

/-- Cycle operation `Y`: `vc = [0,0,1]`, origin 2 (replica 2's first
write).  Under `compareOperations`, `X` dominates `Y`, `Y` beats `Z` on
tie-breaker, and `Z` beats `X` on tie-breaker: a comparator cycle. -/
def c7opY : Operation :=
  { OperationType := OpKind.Write, VersionVector := [0,0,1], TieBreaker := 2, Data := 21 }

/-- Cycle operation `Z`: `vc = [0,1,0]`, origin 1 (replica 1's first
write). -/
def c7opZ : Operation :=
  { OperationType := OpKind.Write, VersionVector := [0,1,0], TieBreaker := 1, Data := 14 }

/-- Gossip request delivering the cycle `[Z, X, Y]`. -/
def c7req : GossipRequest := { ServerId := 0, Operations := [c7opZ, c7opX, c7opY] }

/-- State of an empty replica 1 after one delivery of `c7req`: nothing is
admissible (each operation is two-off or blocked), so all three operations
sit in the pending set. -/
def c7after1 : Server :=
  { New 1 3 with PendingOperations := [c7opX, c7opZ, c7opY] }

/-- State after delivering `c7req` a second time: the comparator cycle
makes the merged six-element list locally sorted, adjacent deduplication
removes nothing, and the pending set doubles. -/
def c7after2 : Server :=
  { New 1 3 with PendingOperations := [c7opX, c7opZ, c7opY, c7opX, c7opZ, c7opY] }


/-! ### Claim C2 (scenario S3) -/

/-- Claim C2, counterexample.  In scenario S3 the applied log of replica 0
after merging is `[op100, op200]` — ascending, with the higher origin id
last — not the claimed `[op200, op100]`, and the final value is 200, not
100: under the code's comparator the log is kept ascending and the value is
taken from the last (greatest) entry, so the concurrent write with the
higher tie-breaker wins. -/
theorem C2_counterexample :
    ReceiveGossip s3r0 s3gossip1 = some (s3final s3r0 [op100])
    ∧ (s3final s3r0 [op100]).OperationsPerformed ≠ [op200, op100]
    ∧ (s3final s3r0 [op100]).Data ≠ 100 := by
  refine ⟨by decide, by decide, by decide⟩

/-- Claim C2, amended: in scenario S3 (write of 100 at replica 0,
concurrent write of 200 at replica 1, both gossiped and merged everywhere,
in either order at replica 2) every replica ends with applied log
`[op(vc=[1,0,0],origin=0,data=100), op(vc=[0,1,0],origin=1,data=200)]` —
concurrent operations ordered with the higher origin id last — final value
200, and final vector clock `[1,1,0]`. -/
theorem C2_theorem :
    ProcessClientRequest (New 0 3) (mkRequest OpKind.Write Causal 100 [0,0,0] [0,0,0])
      = some (s3r0, { Succeeded := true, OperationType := OpKind.Write, Data := 100,
                      ReadVector := [0,0,0], WriteVector := [1,0,0] })
    ∧ ProcessClientRequest (New 1 3) (mkRequest OpKind.Write Causal 200 [0,0,0] [0,0,0])
      = some (s3r1, { Succeeded := true, OperationType := OpKind.Write, Data := 200,
                      ReadVector := [0,0,0], WriteVector := [0,1,0] })
    ∧ ReceiveGossip s3r0 s3gossip1 = some (s3final s3r0 [op100])
    ∧ ReceiveGossip s3r1 s3gossip0 = some (s3final s3r1 [op200])
    ∧ (ReceiveGossip (New 2 3) s3gossip0).bind (fun s => ReceiveGossip s s3gossip1)
      = some (s3final (New 2 3) [])
    ∧ (ReceiveGossip (New 2 3) s3gossip1).bind (fun s => ReceiveGossip s s3gossip0)
      = some (s3final (New 2 3) []) := by
  refine ⟨by decide, by decide, by decide, by decide, by decide, by decide⟩

/-! ### Claim C3 (anti-entropy driver) -/

/-- Concrete server used to refute claim C3: one locally-originated
operation in `MyOperations`. -/
def c3server : Server :=
  { New 0 2 with VectorClock := [1,0], OperationsPerformed := [op100],
                 MyOperations := [op100], Data := 100 }

/-- Claim C3, counterexample.  A gossip tick with non-empty `my_log` sends
the log to the other peer but does not clear it, and the very next tick
sends the same operation to the same peer again — refuting both the
"clears `my_log`" and the "not re-sent on later ticks" parts of the claim. -/
theorem C3_counterexample :
    (sendGossipTick c3server).1
      = [(1, { ServerId := 0, Operations := [op100] })]
    ∧ (sendGossipTick c3server).2.MyOperations = [op100]
    ∧ (sendGossipTick ((sendGossipTick c3server).2)).1
      = [(1, { ServerId := 0, Operations := [op100] })] := by
  refine ⟨by decide, by decide, by decide⟩

/-- Claim C3, amended: on every gossip tick with a non-empty `my_log` the
driver sends `my_log` (the locally-originated operations, once per peer per
tick) to exactly the peer indices other than its own id, but it never
clears `my_log`, so the whole log is sent again identically on the next
tick; receivers rely on deduplication to discard the repeats. -/
theorem C3_theorem (s : Server) (hne : ¬ s.MyOperations = []) :
    (sendGossipTick s).2 = s
    ∧ (∀ i, i < s.Peers → ¬ i = s.Id →
        (i, { ServerId := s.Id, Operations := s.MyOperations }) ∈ (sendGossipTick s).1)
    ∧ (∀ p ∈ (sendGossipTick s).1,
        ¬ p.1 = s.Id ∧ p.2 = { ServerId := s.Id, Operations := s.MyOperations })
    ∧ sendGossipTick ((sendGossipTick s).2) = sendGossipTick s := by
  unfold sendGossipTick
  simp only [if_neg hne]
  refine ⟨by trivial, ?_, ?_, by simp [if_neg hne]⟩
  · intro i hi hne2
    simp only [List.mem_map, List.mem_filter, List.mem_range]
    exact ⟨i, ⟨by simpa using hi, by simpa using hne2⟩, rfl⟩
  · intro p hp
    simp only [List.mem_map, List.mem_filter, List.mem_range] at hp
    obtain ⟨i, ⟨-, hne2⟩, rfl⟩ := hp
    exact ⟨by simpa using hne2, rfl⟩

/-- Claim C3, witness for the amended theorem at the concrete server. -/
theorem C3_witness :
    ¬ c3server.MyOperations = []
    ∧ ((sendGossipTick c3server).2 = c3server
        ∧ (∀ i, i < c3server.Peers → ¬ i = c3server.Id →
            (i, { ServerId := c3server.Id, Operations := c3server.MyOperations })
              ∈ (sendGossipTick c3server).1)
        ∧ (∀ p ∈ (sendGossipTick c3server).1,
            ¬ p.1 = c3server.Id
            ∧ p.2 = { ServerId := c3server.Id, Operations := c3server.MyOperations })
        ∧ sendGossipTick ((sendGossipTick c3server).2) = sendGossipTick c3server) :=
  ⟨by decide, C3_theorem c3server (by decide)⟩

/-! ### Claim C6 (scenario S6) -/

/-- Claim C6 (scenario S6), confirmed.  An empty replica 1 that receives
`[op(vc=[1,0,0]), op(vc=[2,0,0])]` (origin 0) in one gossip message admits
both and ends with clock `[2,0,0]`; receiving the `[2,0,0]` operation alone
leaves it in the pending set with an empty applied log, and it is applied
only after the `[1,0,0]` operation arrives. -/
theorem C6_theorem :
    ReceiveGossip (New 1 3) { ServerId := 0, Operations := [s6op1, s6op2] }
      = some { New 1 3 with VectorClock := [2,0,0],
                            OperationsPerformed := [s6op1, s6op2], Data := 8 }
    ∧ ReceiveGossip (New 1 3) { ServerId := 0, Operations := [s6op2] }
      = some { New 1 3 with PendingOperations := [s6op2] }
    ∧ (ReceiveGossip (New 1 3) { ServerId := 0, Operations := [s6op2] }).bind
        (fun s => ReceiveGossip s { ServerId := 0, Operations := [s6op1] })
      = some { New 1 3 with VectorClock := [2,0,0],
                            OperationsPerformed := [s6op1, s6op2], Data := 8 } := by
  refine ⟨by decide, by decide, by decide⟩

/-! ### Claim C7 (gossip idempotence), counterexample -/

/-- Claim C7, counterexample.  Delivering `c7req` (three reachable
operations whose comparator relation is cyclic) twice to an empty replica 1
does not leave the state fixed: both deliveries admit nothing, but the
second doubles the pending set from three to six entries, because the
comparator cycle makes the merged list locally sorted and adjacent
deduplication removes nothing. -/
theorem C7_counterexample :
    ReceiveGossip (New 1 3) c7req = some c7after1
    ∧ ReceiveGossip c7after1 c7req = some c7after2
    ∧ c7after2 ≠ c7after1
    ∧ c7after1.PendingOperations.length = 3
    ∧ c7after2.PendingOperations.length = 6 := by
  refine ⟨by decide, by decide, by decide, by decide, by decide⟩


/-! ### Characterizing the vector-clock comparison -/

/-- Domination through a cons on both sides. -/
theorem dominates_cons {a b : Nat} {v1 v2 : List Nat} :
    Dominates (a :: v1) (b :: v2) ↔ (b ≤ a ∧ Dominates v1 v2) := by
  constructor
  · intro h
    refine ⟨by simpa using h 0 (by simp), ?_⟩
    intro i hi
    simpa using h (i+1) (by simpa using Nat.succ_lt_succ hi)
  · rintro ⟨hba, h⟩ i hi
    cases i with
    | zero => simpa using hba
    | succ i => simpa using h i (by simpa using Nat.lt_of_succ_lt_succ hi)

/-- On equal-length vectors the Go comparison never panics and decides
exactly coordinatewise domination. -/
theorem compareVV_eq (v1 v2 : List Nat) (h : v1.length = v2.length) :
    CompareVersionVector v1 v2 = some (decide (Dominates v1 v2)) := by
  induction v1 generalizing v2 with
  | nil =>
    cases v2 with
    | nil => simp [CompareVersionVector, Dominates]
    | cons b v2 => simp at h
  | cons a v1 ih =>
    cases v2 with
    | nil => simp at h
    | cons b v2 =>
      have h' : v1.length = v2.length := by simpa using h
      by_cases hab : a < b
      · have hnd : ¬ Dominates (a :: v1) (b :: v2) := by
          rw [dominates_cons]; rintro ⟨h1, -⟩; omega
        simp [CompareVersionVector, hab, hnd]
      · have hd : Dominates (a :: v1) (b :: v2) ↔ Dominates v1 v2 := by
          rw [dominates_cons]
          exact ⟨fun x => x.2, fun x => ⟨by omega, x⟩⟩
        simp [CompareVersionVector, hab, ih v2 h', decide_eq_decide.mpr hd]

/-- The Go comparison panics exactly when `v2` is shorter than `v1` and,
over `v2`'s indices, `v1` dominates (so the loop never exits early). -/
theorem compareVV_none_iff (v1 v2 : List Nat) :
    CompareVersionVector v1 v2 = none ↔ (v2.length < v1.length ∧ Dominates v1 v2) := by
  induction v1 generalizing v2 with
  | nil => simp [CompareVersionVector]
  | cons a v1 ih =>
    cases v2 with
    | nil =>
      simp only [CompareVersionVector, List.length_nil, List.length_cons, true_iff]
      exact ⟨Nat.succ_pos _, fun i hi => by simp at hi⟩
    | cons b v2 =>
      by_cases hab : a < b
      · simp only [CompareVersionVector, if_pos hab, dominates_cons]
        constructor
        · intro h; simp at h
        · rintro ⟨-, h1, -⟩; omega
      · simp only [CompareVersionVector, if_neg hab, ih, dominates_cons,
                   List.length_cons]
        constructor
        · rintro ⟨hl, hd⟩; exact ⟨by omega, by omega, hd⟩
        · rintro ⟨hl, -, hd⟩; exact ⟨by omega, hd⟩

/-- The Go comparison returns a result whenever `v2` is at least as long as
`v1`. -/
theorem compareVV_isSome (v1 v2 : List Nat) (h : v1.length ≤ v2.length) :
    (CompareVersionVector v1 v2).isSome := by
  cases hc : CompareVersionVector v1 v2 with
  | some b => rfl
  | none => exact absurd ((compareVV_none_iff v1 v2).mp hc).1 (by omega)

/-! ### Claim C5 (dependency-check table) -/

/-- Claim C5, confirmed.  For equal-length vectors the dependency check
follows the session-type table — `Causal` demands domination of both
vectors, `MonotonicReads` and `WritesFollowReads` of the read vector,
`MonotonicWrites` and `ReadYourWrites` of the write vector (so
`ReadYourWrites` checks the write vector) — and consequently `Causal`
accepts exactly when both `MonotonicReads` and `MonotonicWrites` accept
with the same vectors. -/
theorem C5_theorem (vc rv wv : List Nat) (k : OpKind) (d : Nat)
    (hr : vc.length = rv.length) (hw : vc.length = wv.length) :
    (DependencyCheck vc (mkRequest k Causal d rv wv) = some true
      ↔ (Dominates vc rv ∧ Dominates vc wv))
    ∧ (DependencyCheck vc (mkRequest k MonotonicReads d rv wv) = some true
      ↔ Dominates vc rv)
    ∧ (DependencyCheck vc (mkRequest k MonotonicWrites d rv wv) = some true
      ↔ Dominates vc wv)
    ∧ (DependencyCheck vc (mkRequest k ReadYourWrites d rv wv) = some true
      ↔ Dominates vc wv)
    ∧ (DependencyCheck vc (mkRequest k WritesFollowReads d rv wv) = some true
      ↔ Dominates vc rv)
    ∧ (DependencyCheck vc (mkRequest k Causal d rv wv) = some true
      ↔ (DependencyCheck vc (mkRequest k MonotonicReads d rv wv) = some true
          ∧ DependencyCheck vc (mkRequest k MonotonicWrites d rv wv) = some true)) := by
  have hcr := compareVV_eq vc rv hr
  have hcw := compareVV_eq vc wv hw
  have hCausal : DependencyCheck vc (mkRequest k Causal d rv wv) = some true
      ↔ (Dominates vc rv ∧ Dominates vc wv) := by
    simp only [DependencyCheck, mkRequest, Causal]
    rw [if_pos trivial, hcw]
    by_cases hdw : Dominates vc wv
    · simp [hdw, hcr]
    · simp [hdw]
  have hMR : DependencyCheck vc (mkRequest k MonotonicReads d rv wv) = some true
      ↔ Dominates vc rv := by
    simp [DependencyCheck, mkRequest, MonotonicReads, Causal, hcr]
  have hMW : DependencyCheck vc (mkRequest k MonotonicWrites d rv wv) = some true
      ↔ Dominates vc wv := by
    simp [DependencyCheck, mkRequest, MonotonicWrites, MonotonicReads, Causal, hcw]
  refine ⟨hCausal, hMR, hMW, ?_, ?_, ?_⟩
  · simp [DependencyCheck, mkRequest, ReadYourWrites, MonotonicWrites, MonotonicReads,
          Causal, hcw]
  · simp [DependencyCheck, mkRequest, WritesFollowReads, ReadYourWrites, MonotonicWrites,
          MonotonicReads, Causal, hcr]
  · rw [hCausal, hMR, hMW, and_comm]

/-- Claim C5, witness at concrete vectors `vc = [1,2]`, `rv = [1,0]`,
`wv = [0,2]`. -/
theorem C5_witness :
    ([1,2] : List Nat).length = ([1,0] : List Nat).length
    ∧ ([1,2] : List Nat).length = ([0,2] : List Nat).length
    ∧ ((DependencyCheck [1,2] (mkRequest OpKind.Read Causal 0 [1,0] [0,2]) = some true
      ↔ (Dominates [1,2] [1,0] ∧ Dominates [1,2] [0,2]))
    ∧ (DependencyCheck [1,2] (mkRequest OpKind.Read MonotonicReads 0 [1,0] [0,2]) = some true
      ↔ Dominates [1,2] [1,0])
    ∧ (DependencyCheck [1,2] (mkRequest OpKind.Read MonotonicWrites 0 [1,0] [0,2]) = some true
      ↔ Dominates [1,2] [0,2])
    ∧ (DependencyCheck [1,2] (mkRequest OpKind.Read ReadYourWrites 0 [1,0] [0,2]) = some true
      ↔ Dominates [1,2] [0,2])
    ∧ (DependencyCheck [1,2] (mkRequest OpKind.Read WritesFollowReads 0 [1,0] [0,2]) = some true
      ↔ Dominates [1,2] [1,0])
    ∧ (DependencyCheck [1,2] (mkRequest OpKind.Read Causal 0 [1,0] [0,2]) = some true
      ↔ (DependencyCheck [1,2] (mkRequest OpKind.Read MonotonicReads 0 [1,0] [0,2]) = some true
          ∧ DependencyCheck [1,2] (mkRequest OpKind.Read MonotonicWrites 0 [1,0] [0,2]) = some true))) :=
  ⟨by decide, by decide, C5_theorem [1,2] [1,0] [0,2] OpKind.Read 0 (by decide) (by decide)⟩

/-! ### Claim C9 (programmer errors abort) -/

/-- Claim C9, counterexample.  The vector comparison does not abort on
every length mismatch: with `v1 = [0]` and `v2 = [0,5]` (lengths 1 and 2)
it returns `true`, and with `v1 = [0,1]`, `v2 = [1]` it returns `false`
(the early exit fires before the out-of-range read). -/
theorem C9_counterexample :
    ([0] : List Nat).length ≠ ([0,5] : List Nat).length
    ∧ CompareVersionVector [0] [0,5] = some true
    ∧ ([0,1] : List Nat).length ≠ ([1] : List Nat).length
    ∧ CompareVersionVector [0,1] [1] = some false := by
  refine ⟨by decide, by decide, by decide, by decide⟩

/-- Claim C9, amended: a request whose session type is not one of the five
defined variants makes `DependencyCheck` abort (the `switch` default
panics), and the vector comparison aborts exactly when `v2` is shorter than
`v1` and `v1` dominates `v2` on `v2`'s indices — in particular it never
aborts when `v2` is at least as long as `v1`, and even a shorter `v2` just
yields `false` when some coordinate fails early. -/
theorem C9_theorem :
    (∀ (vc : List Nat) (req : ClientRequest), 5 ≤ req.SessionType →
        DependencyCheck vc req = none)
    ∧ (∀ v1 v2 : List Nat, CompareVersionVector v1 v2 = none
        ↔ (v2.length < v1.length ∧ Dominates v1 v2))
    ∧ (∀ v1 v2 : List Nat, v1.length ≤ v2.length →
        (CompareVersionVector v1 v2).isSome) := by
  refine ⟨?_, compareVV_none_iff, compareVV_isSome⟩
  intro vc req h
  have h0 : ¬ req.SessionType = Causal := by simp [Causal]; omega
  have h1 : ¬ req.SessionType = MonotonicReads := by simp [MonotonicReads]; omega
  have h2 : ¬ req.SessionType = MonotonicWrites := by simp [MonotonicWrites]; omega
  have h3 : ¬ req.SessionType = ReadYourWrites := by simp [ReadYourWrites]; omega
  have h4 : ¬ req.SessionType = WritesFollowReads := by simp [WritesFollowReads]; omega
  simp [DependencyCheck, h0, h1, h2, h3, h4]

/-- Claim C9, witness: session type 7 aborts the dependency check, and the
comparison characterization instantiated at `v1 = [1,0]`, `v2 = [0]`. -/
theorem C9_witness :
    5 ≤ (mkRequest OpKind.Read 7 0 [] []).SessionType
    ∧ DependencyCheck [0,0] (mkRequest OpKind.Read 7 0 [] []) = none
    ∧ (CompareVersionVector [1,0] [0] = none
        ↔ (([0] : List Nat).length < ([1,0] : List Nat).length ∧ Dominates [1,0] [0])) :=
  ⟨by decide, C9_theorem.1 [0,0] (mkRequest OpKind.Read 7 0 [] []) (by decide),
   C9_theorem.2.1 [1,0] [0]⟩


/-! ### Claim C1 (one-off admissibility) -/

/-- Behaviour actually implemented by `oneOffVersionVector` (amended claim
C1): skipping the receiver's own index `sid` — not the operation's origin —
every index where `v1` falls short of `v2` must be an exact "+1" index and
must be the only such index. -/
def codeOneOffSpec (sid : Nat) (v1 v2 : List Nat) : Prop :=
  ∀ i < v1.length, i ≠ sid → v1.getD i 0 < v2.getD i 0 →
    (v2.getD i 0 = v1.getD i 0 + 1
     ∧ ∀ j < v1.length, j ≠ sid → v1.getD j 0 < v2.getD j 0 → j = i)

/-- Claim C1, counterexample.  Both directions of the claimed equivalence
fail on the code.  Receiver 1 evaluating an origin-0 operation: the spec
predicate accepts `cur = [0,0,0]`, `op.vc = [2,0,0]` (the only deficit is
at the origin), but the code rejects it (the deficit is not an exact +1 and
index 0 is not skipped, only index 1 is); conversely the code accepts
`cur = [0,5,0]`, `op.vc = [0,6,0]` (the deficit sits at the receiver's own
index 1, which the code skips), but the spec predicate rejects it. -/
theorem C1_counterexample :
    specDirectlyAdmissible 0 [0,0,0] [2,0,0]
    ∧ oneOffVersionVector 1 [0,0,0] [2,0,0] = some false
    ∧ oneOffVersionVector 1 [0,5,0] [0,6,0] = some true
    ∧ ¬ specDirectlyAdmissible 0 [0,5,0] [0,6,0] := by
  refine ⟨by decide, by decide, by decide, by decide⟩

/-- Helper for claim C1: with the one-off credit spent, the remaining loop
accepts exactly when no further non-skipped index has a deficit. -/
theorem oneOffAux_false_iff (sid : Nat) :
    ∀ (v1 v2 : List Nat) (i : Nat), v1.length = v2.length →
    (oneOffAux sid i false v1 v2 = some true ↔
      ∀ k < v1.length, i + k ≠ sid → v2.getD k 0 ≤ v1.getD k 0)
  | [], v2, i, _ => by
    simp [oneOffAux]
  | a :: v1, [], i, h => by simp at h
  | a :: v1, b :: v2, i, h => by
    have h' : v1.length = v2.length := by simpa using h
    by_cases his : i = sid
    · rw [oneOffAux, if_pos his]
      rw [show (b :: v2).tail = v2 from rfl, oneOffAux_false_iff sid v1 v2 (i+1) h']
      constructor
      · intro hh k hk hne
        cases k with
        | zero => omega
        | succ m =>
          simpa using hh m (by simpa using Nat.lt_of_succ_lt_succ hk) (by omega)
      · intro hh m hm hne
        simpa using hh (m+1) (by simpa using Nat.succ_lt_succ hm) (by omega)
    · rw [oneOffAux, if_neg his]
      have hct : ¬ (false = true ∧ a + 1 = b) := by simp
      rw [if_neg hct]
      by_cases hab : a < b
      · rw [if_pos hab]
        constructor
        · intro hh; simp at hh
        · intro hh
          have := hh 0 (by simp) (by omega)
          simp at this; omega
      · rw [if_neg hab, oneOffAux_false_iff sid v1 v2 (i+1) h']
        constructor
        · intro hh k hk hne
          cases k with
          | zero => simpa using by omega
          | succ m =>
            simpa using hh m (by simpa using Nat.lt_of_succ_lt_succ hk) (by omega)
        · intro hh m hm hne
          simpa using hh (m+1) (by simpa using Nat.succ_lt_succ hm) (by omega)

/-- Helper for claim C1: with the one-off credit available, the loop
accepts exactly when every non-skipped deficit index is an exact "+1" index
and is unique. -/
theorem oneOffAux_true_iff (sid : Nat) :
    ∀ (v1 v2 : List Nat) (i : Nat), v1.length = v2.length →
    (oneOffAux sid i true v1 v2 = some true ↔
      ∀ k < v1.length, i + k ≠ sid → v1.getD k 0 < v2.getD k 0 →
        (v2.getD k 0 = v1.getD k 0 + 1
         ∧ ∀ m < v1.length, i + m ≠ sid → v1.getD m 0 < v2.getD m 0 → m = k))
  | [], v2, i, _ => by
    simp [oneOffAux]
  | a :: v1, [], i, h => by simp at h
  | a :: v1, b :: v2, i, h => by
    have h' : v1.length = v2.length := by simpa using h
    by_cases his : i = sid
    · rw [oneOffAux, if_pos his]
      rw [show (b :: v2).tail = v2 from rfl, oneOffAux_true_iff sid v1 v2 (i+1) h']
      constructor
      · intro hh k hk hne hdef
        cases k with
        | zero => omega
        | succ n =>
          have hn : n < v1.length := by simpa using Nat.lt_of_succ_lt_succ hk
          have := hh n hn (by omega) (by simpa using hdef)
          refine ⟨by simpa using this.1, ?_⟩
          intro m hm hne2 hdef2
          cases m with
          | zero => omega
          | succ p =>
            have hp : p < v1.length := by simpa using Nat.lt_of_succ_lt_succ hm
            have := this.2 p hp (by omega) (by simpa using hdef2)
            omega
      · intro hh n hn hne hdef
        have := hh (n+1) (by simpa using Nat.succ_lt_succ hn) (by omega)
          (by simpa using hdef)
        refine ⟨by simpa using this.1, ?_⟩
        intro p hp hne2 hdef2
        have := this.2 (p+1) (by simpa using Nat.succ_lt_succ hp) (by omega)
          (by simpa using hdef2)
        omega
    · rw [oneOffAux, if_neg his]
      by_cases h1 : a + 1 = b
      · rw [if_pos ⟨rfl, h1⟩, oneOffAux_false_iff sid v1 v2 (i+1) h']
        constructor
        · intro hh k hk hne hdef
          cases k with
          | zero =>
            refine ⟨by simpa using h1.symm, ?_⟩
            intro m hm hne2 hdef2
            cases m with
            | zero => rfl
            | succ p =>
              have hp : p < v1.length := by simpa using Nat.lt_of_succ_lt_succ hm
              have := hh p hp (by omega)
              simp only [List.getD_cons_succ] at hdef2
              omega
          | succ n =>
            have hn : n < v1.length := by simpa using Nat.lt_of_succ_lt_succ hk
            have := hh n hn (by omega)
            simp only [List.getD_cons_succ] at hdef
            omega
        · intro hh m hm hne
          by_contra hcon
          push_neg at hcon
          have hdef0 : (a :: v1).getD 0 0 < (b :: v2).getD 0 0 := by
            simp only [List.getD_cons_zero]; omega
          have h0 := hh 0 (by simp) (by omega) hdef0
          have := h0.2 (m+1) (by simpa using Nat.succ_lt_succ hm) (by omega)
            (by simp only [List.getD_cons_succ]; omega)
          omega
      · by_cases hab : a < b
        · rw [if_neg (by simp [h1]), if_pos hab]
          constructor
          · intro hh; simp at hh
          · intro hh
            have hdef0 : (a :: v1).getD 0 0 < (b :: v2).getD 0 0 := by simpa using hab
            have := (hh 0 (by simp) (by omega) hdef0).1
            simp at this
            omega
        · rw [if_neg (by simp [h1]), if_neg hab, oneOffAux_true_iff sid v1 v2 (i+1) h']
          constructor
          · intro hh k hk hne hdef
            cases k with
            | zero => simp at hdef; omega
            | succ n =>
              have hn : n < v1.length := by simpa using Nat.lt_of_succ_lt_succ hk
              have := hh n hn (by omega) (by simpa using hdef)
              refine ⟨by simpa using this.1, ?_⟩
              intro m hm hne2 hdef2
              cases m with
              | zero => simp at hdef2; omega
              | succ p =>
                have hp : p < v1.length := by simpa using Nat.lt_of_succ_lt_succ hm
                have := this.2 p hp (by omega) (by simpa using hdef2)
                omega
          · intro hh n hn hne hdef
            have := hh (n+1) (by simpa using Nat.succ_lt_succ hn) (by omega)
              (by simpa using hdef)
            refine ⟨by simpa using this.1, ?_⟩
            intro p hp hne2 hdef2
            have := this.2 (p+1) (by simpa using Nat.succ_lt_succ hp) (by omega)
              (by simpa using hdef2)
            omega

/-- Helper: on equal-length vectors the one-off check never panics. -/
theorem oneOffAux_isSome (sid : Nat) :
    ∀ (v1 v2 : List Nat) (i : Nat) (ct : Bool), v1.length = v2.length →
    (oneOffAux sid i ct v1 v2).isSome
  | [], v2, i, ct, _ => by simp [oneOffAux]
  | a :: v1, [], i, ct, h => by simp at h
  | a :: v1, b :: v2, i, ct, h => by
    have h' : v1.length = v2.length := by simpa using h
    rw [oneOffAux]
    by_cases his : i = sid
    · rw [if_pos his]
      exact oneOffAux_isSome sid v1 v2 (i+1) ct h'
    · rw [if_neg his]
      by_cases hcb : ct = true ∧ a + 1 = b
      · rw [if_pos hcb]
        exact oneOffAux_isSome sid v1 v2 (i+1) false h'
      · rw [if_neg hcb]
        by_cases hab : a < b
        · rw [if_pos hab]; rfl
        · rw [if_neg hab]
          exact oneOffAux_isSome sid v1 v2 (i+1) ct h'

/-- Claim C1, amended: for equal-length vectors, the operation is directly
admissible at a replica with id `sid` (the receiver calling
`oneOffVersionVector(s.Id, cur, op.vc)`) iff, ignoring the receiver's own
coordinate `sid` — not the operation's origin coordinate — every coordinate
where `cur` falls short of `op.vc` is an exact `cur[i]+1` coordinate and is
the only such coordinate; the check never panics on equal lengths. -/
theorem C1_theorem (sid : Nat) (v1 v2 : List Nat) (h : v1.length = v2.length) :
    (oneOffVersionVector sid v1 v2 = some true ↔ codeOneOffSpec sid v1 v2)
    ∧ (oneOffVersionVector sid v1 v2).isSome := by
  refine ⟨?_, oneOffAux_isSome sid v1 v2 0 true h⟩
  rw [oneOffVersionVector, oneOffAux_true_iff sid v1 v2 0 h]
  constructor
  · intro hh i hi hne hdef
    have := hh i hi (by omega) hdef
    exact ⟨this.1, fun j hj hne2 hdef2 => this.2 j hj (by omega) hdef2⟩
  · intro hh i hi hne hdef
    have := hh i hi (by omega) hdef
    exact ⟨this.1, fun m hm hne2 hdef2 => this.2 m hm (by omega) hdef2⟩

/-- Claim C1, witness for the amended theorem: receiver 1, `cur = [1,0,0]`,
`op.vc = [2,0,0]` (a single exact +1 deficit at index 0, accepted). -/
theorem C1_witness :
    ([1,0,0] : List Nat).length = ([2,0,0] : List Nat).length
    ∧ ((oneOffVersionVector 1 [1,0,0] [2,0,0] = some true
        ↔ codeOneOffSpec 1 [1,0,0] [2,0,0])
       ∧ (oneOffVersionVector 1 [1,0,0] [2,0,0]).isSome) :=
  ⟨by decide, C1_theorem 1 [1,0,0] [2,0,0] (by decide)⟩


/-! ### Pointwise-maximum helpers -/

/-- Merging a shorter-or-equal vector into `mx` succeeds and computes the
pointwise maximum (reads past the end of either side give the identity 0). -/
theorem mergeMaxVector_spec (mx v : List Nat) (h : v.length ≤ mx.length) :
    ∃ r, mergeMaxVector mx v = some r ∧ r.length = mx.length
      ∧ ∀ i, r.getD i 0 = max (mx.getD i 0) (v.getD i 0) := by
  induction mx generalizing v with
  | nil =>
    cases v with
    | nil => exact ⟨[], rfl, rfl, fun i => by simp⟩
    | cons u vs => simp at h
  | cons m mx ih =>
    cases v with
    | nil =>
      refine ⟨m :: mx, rfl, rfl, fun i => ?_⟩
      cases i <;> simp
    | cons u vs =>
      obtain ⟨r, hr, hlen, hget⟩ := ih vs (by simpa using h)
      refine ⟨max m u :: r, ?_, by simpa using hlen, fun i => ?_⟩
      · simp [mergeMaxVector, hr]
      · cases i with
        | zero => simp
        | succ i => simpa using hget i

/-- `GetMaxVersionVector` on a two-element list is a single merge. -/
theorem getMaxVV_pair (v1 v2 : List Nat) :
    GetMaxVersionVector [v1, v2]
      = (mergeMaxVector v1 v2).bind (fun r => some r) := by
  simp [GetMaxVersionVector, List.foldlM]

/-- Element read after `List.set` at the written index. -/
theorem getD_set_eq (l : List Nat) (n a : Nat) (h : n < l.length) :
    (l.set n a).getD n 0 = a := by
  induction l generalizing n with
  | nil => simp at h
  | cons x l ih =>
    cases n with
    | zero => simp
    | succ n => simpa using ih n (by simpa using h)

/-- Element read after `List.set` at another index. -/
theorem getD_set_ne (l : List Nat) (n i a : Nat) (h : ¬ n = i) :
    (l.set n a).getD i 0 = l.getD i 0 := by
  induction l generalizing n i with
  | nil => simp
  | cons x l ih =>
    cases n with
    | zero => cases i with
      | zero => exact absurd rfl h
      | succ i => simp
    | succ n => cases i with
      | zero => simp
      | succ i => simpa using ih n i (by omega)

/-! ### Claim C4 (session monotonicity) -/

/-- Server used to refute claim C4: replica 1 with an all-zero clock. -/
def c4server : Server := New 1 3

/-- Write request under `MonotonicReads` carrying a write vector the
replica has never seen. -/
def c4req : ClientRequest := mkRequest OpKind.Write MonotonicReads 9 [0,0,0] [5,0,0]

/-- Claim C4, counterexample.  A client that performed five writes at
replica 0 (write vector `[5,0,0]`) and issues a `MonotonicReads`-session
write at the fresh replica 1 gets a successful reply whose write vector
`[0,1,0]` does not dominate the request's `[5,0,0]`: storing it makes the
client's write vector decrease at coordinate 0, so the claimed monotonicity
for every session type fails. -/
theorem C4_counterexample :
    ProcessClientRequest c4server c4req
      = some ({ c4server with VectorClock := [0,1,0],
                              OperationsPerformed := [⟨OpKind.Write, [0,1,0], 1, 9⟩],
                              MyOperations := [⟨OpKind.Write, [0,1,0], 1, 9⟩],
                              Data := 9 },
              { Succeeded := true, OperationType := OpKind.Write, Data := 9,
                ReadVector := [0,0,0], WriteVector := [0,1,0] })
    ∧ ¬ Dominates [0,1,0] [5,0,0] := by
  refine ⟨by decide, by decide⟩

/-- Helper for claim C4: whenever the dependency check succeeds under
`Causal`, `MonotonicWrites` or `ReadYourWrites`, the server clock dominates
the request's write vector. -/
theorem depCheck_write_dominates (vc : List Nat) (req : ClientRequest)
    (h : DependencyCheck vc req = some true)
    (hst : req.SessionType = Causal ∨ req.SessionType = MonotonicWrites
           ∨ req.SessionType = ReadYourWrites) :
    CompareVersionVector vc req.WriteVector = some true := by
  rcases hst with hst | hst | hst
  · rw [DependencyCheck, if_pos hst] at h
    cases hcw : CompareVersionVector vc req.WriteVector with
    | none => rw [hcw] at h; exact absurd h (by simp)
    | some b =>
      cases b with
      | false => rw [hcw] at h; exact absurd h (by simp)
      | true => rfl
  · rw [DependencyCheck, if_neg (by rw [hst]; decide),
        if_neg (by rw [hst]; decide), if_pos hst] at h
    exact h
  · rw [DependencyCheck, if_neg (by rw [hst]; decide),
        if_neg (by rw [hst]; decide), if_neg (by rw [hst]; decide),
        if_pos hst] at h
    exact h

/-- Claim C4, amended: for equal-length vectors, every successful reply's
read vector dominates the request's read vector (reads return the pointwise
maximum with the server clock, writes echo it), but the reply's write
vector is only guaranteed to dominate the request's write vector when the
session type actually checks it — `Causal`, `MonotonicWrites` or
`ReadYourWrites`; under `MonotonicReads` or `WritesFollowReads` a write can
return a non-dominating write vector (see the counterexample). -/
theorem C4_theorem (s : Server) (req : ClientRequest) (s' : Server) (reply : ClientReply)
    (hr : req.ReadVector.length = s.VectorClock.length)
    (hw : req.WriteVector.length = s.VectorClock.length)
    (hrun : ProcessClientRequest s req = some (s', reply))
    (hsucc : reply.Succeeded = true) :
    Dominates reply.ReadVector req.ReadVector
    ∧ ((req.SessionType = Causal ∨ req.SessionType = MonotonicWrites
        ∨ req.SessionType = ReadYourWrites) →
       Dominates reply.WriteVector req.WriteVector) := by
  rw [ProcessClientRequest] at hrun
  cases hdc : DependencyCheck s.VectorClock req with
  | none => rw [hdc] at hrun; exact absurd hrun (by simp)
  | some b =>
    cases b with
    | false =>
      rw [hdc] at hrun
      simp only [Option.some.injEq, Prod.mk.injEq] at hrun
      rw [← hrun.2] at hsucc
      exact absurd hsucc (by simp)
    | true =>
      rw [hdc] at hrun
      by_cases hk : req.OperationType = OpKind.Read
      · rw [if_pos hk] at hrun
        obtain ⟨r, hmr, -, hget⟩ :=
          mergeMaxVector_spec req.ReadVector s.VectorClock (by omega)
        rw [getMaxVV_pair, hmr] at hrun
        simp only [Option.some_bind, Option.some.injEq, Prod.mk.injEq] at hrun
        rw [← hrun.2]
        constructor
        · intro i hi
          rw [hget i]
          exact Nat.le_max_left _ _
        · intro hst i hi
          exact Nat.le_refl _
      · rw [if_neg hk] at hrun
        by_cases hid : s.Id < s.VectorClock.length
        · rw [if_pos hid] at hrun
          simp only [Option.some.injEq, Prod.mk.injEq] at hrun
          rw [← hrun.2]
          constructor
          · intro i hi
            exact Nat.le_refl _
          · intro hst i hi
            have hcw := depCheck_write_dominates s.VectorClock req hdc hst
            have hdom : Dominates s.VectorClock req.WriteVector := by
              have := compareVV_eq s.VectorClock req.WriteVector (by omega)
              rw [this] at hcw
              simpa using hcw
            refine Nat.le_trans (hdom i hi) ?_
            by_cases hii : s.Id = i
            · rw [← hii, getD_set_eq s.VectorClock s.Id _ hid]
              omega
            · rw [getD_set_ne s.VectorClock s.Id i _ hii]
        · rw [if_neg hid] at hrun
          exact absurd hrun (by simp)

/-- Claim C4, witness: a successful `Causal` write at replica 0 with clock
`[1,0]`, read vector `[0,0]`, write vector `[1,0]`. -/
theorem C4_witness :
    (([0,0] : List Nat)).length = ([1,0] : List Nat).length
    ∧ ProcessClientRequest
        { Id := 0, Peers := 2, VectorClock := [1,0], OperationsPerformed := [],
          MyOperations := [], PendingOperations := [], Data := 0 }
        (mkRequest OpKind.Write Causal 5 [0,0] [1,0])
      = some ({ Id := 0, Peers := 2, VectorClock := [2,0],
                OperationsPerformed := [⟨OpKind.Write, [2,0], 0, 5⟩],
                MyOperations := [⟨OpKind.Write, [2,0], 0, 5⟩],
                PendingOperations := [], Data := 5 },
              { Succeeded := true, OperationType := OpKind.Write, Data := 5,
                ReadVector := [0,0], WriteVector := [2,0] })
    ∧ (Dominates [0,0] [0,0]
        ∧ (((mkRequest OpKind.Write Causal 5 [0,0] [1,0]).SessionType = Causal
            ∨ (mkRequest OpKind.Write Causal 5 [0,0] [1,0]).SessionType = MonotonicWrites
            ∨ (mkRequest OpKind.Write Causal 5 [0,0] [1,0]).SessionType = ReadYourWrites) →
           Dominates [2,0] [1,0])) := by
  refine ⟨by decide, by decide, ?_⟩
  have := C4_theorem
    { Id := 0, Peers := 2, VectorClock := [1,0], OperationsPerformed := [],
      MyOperations := [], PendingOperations := [], Data := 0 }
    (mkRequest OpKind.Write Causal 5 [0,0] [1,0])
    { Id := 0, Peers := 2, VectorClock := [2,0],
      OperationsPerformed := [⟨OpKind.Write, [2,0], 0, 5⟩],
      MyOperations := [⟨OpKind.Write, [2,0], 0, 5⟩],
      PendingOperations := [], Data := 5 }
    { Succeeded := true, OperationType := OpKind.Write, Data := 5,
      ReadVector := [0,0], WriteVector := [2,0] }
    (by decide) (by decide) (by decide) (by decide)
  exact this


/-! ### Well-formedness and the gossip machinery -/

/-- All operations in a list carry length-`n` version vectors. -/
def OpsLen (n : Nat) (l : List Operation) : Prop :=
  ∀ op ∈ l, op.VersionVector.length = n

/-- Reading `vcMaxAt` beyond every vector's length gives 0. -/
theorem vcMaxAt_of_le {n : Nat} {ops : List Operation} (h : OpsLen n ops)
    {i : Nat} (hi : n ≤ i) : vcMaxAt ops i = 0 := by
  induction ops with
  | nil => rfl
  | cons o rest ih =>
    have ho : o.VersionVector.length = n := h o (by simp)
    have hz : o.VersionVector.getD i 0 = 0 :=
      List.getD_eq_default _ _ (by omega)
    have hr := ih (fun op hop => h op (by simp [hop]))
    simp only [vcMaxAt, List.map_cons, List.foldr_cons, hz] at *
    omega

/-- `vcMaxAt` distributes over append as a maximum. -/
theorem vcMaxAt_append (l1 l2 : List Operation) (i : Nat) :
    vcMaxAt (l1 ++ l2) i = max (vcMaxAt l1 i) (vcMaxAt l2 i) := by
  induction l1 with
  | nil => simp [vcMaxAt]
  | cons o rest ih =>
    simp only [vcMaxAt, List.cons_append, List.map_cons, List.foldr_cons] at *
    omega

/-- Reading `maxPointwise` with default 0 gives `vcMaxAt` at every index. -/
theorem getD_maxPointwise {n : Nat} {ops : List Operation} (h : OpsLen n ops) (i : Nat) :
    (maxPointwise n ops).getD i 0 = vcMaxAt ops i := by
  by_cases hi : i < n
  · have hlen : i < (maxPointwise n ops).length := by
      simp [maxPointwise]; omega
    rw [List.getD_eq_getElem _ _ hlen]
    simp [maxPointwise]
  · rw [List.getD_eq_default _ _ (by simp [maxPointwise]; omega)]
    exact (vcMaxAt_of_le h (by omega)).symm

/-- A vector of length `n` whose reads agree with `vcMaxAt` is
`maxPointwise`. -/
theorem eq_maxPointwise {n : Nat} {ops : List Operation} {m : List Nat}
    (hlen : m.length = n) (hget : ∀ i, m.getD i 0 = vcMaxAt ops i) :
    m = maxPointwise n ops := by
  apply List.ext_getElem (by simp [maxPointwise, hlen])
  intro i h1 h2
  have hh := hget i
  rw [List.getD_eq_getElem _ _ h1] at hh
  rw [hh]
  simp [maxPointwise]

/-- The fold inside `operationsGetMaxVersionVector` succeeds on length-`n`
vectors and computes the running pointwise maximum. -/
theorem foldMerge_spec {n : Nat} (rest : List Operation) (h : OpsLen n rest) :
    ∀ mx : List Nat, mx.length = n →
    ∃ m, rest.foldlM (fun mx o => mergeMaxVector mx o.VersionVector) mx = some m
      ∧ m.length = n ∧ ∀ i, m.getD i 0 = max (mx.getD i 0) (vcMaxAt rest i) := by
  induction rest with
  | nil =>
    intro mx hmx
    refine ⟨mx, by simp, hmx, fun i => ?_⟩
    simp [vcMaxAt]
  | cons o rest ih =>
    intro mx hmx
    have ho : o.VersionVector.length = n := h o (by simp)
    obtain ⟨r, hr, hrlen, hrget⟩ := mergeMaxVector_spec mx o.VersionVector (by omega)
    obtain ⟨m, hm, hmlen, hmget⟩ := ih (fun op hop => h op (by simp [hop])) r (by omega)
    refine ⟨m, ?_, hmlen, fun i => ?_⟩
    · rw [List.foldlM_cons, hr]
      simpa using hm
    · have e1 := hmget i
      have e2 := hrget i
      simp only [vcMaxAt, List.map_cons, List.foldr_cons] at *
      omega

/-- `operationsGetMaxVersionVector` on a non-empty length-`n` log computes
the pointwise maximum. -/
theorem opsGetMax_spec {n : Nat} {ops : List Operation} (h : OpsLen n ops)
    (hne : ¬ ops = []) :
    operationsGetMaxVersionVector ops = some (maxPointwise n ops) := by
  cases ops with
  | nil => exact absurd rfl hne
  | cons op rest =>
    have ho : op.VersionVector.length = n := h op (by simp)
    obtain ⟨m, hm, hmlen, hmget⟩ :=
      foldMerge_spec rest (fun o hop => h o (by simp [hop])) op.VersionVector ho
    rw [operationsGetMaxVersionVector, hm]
    congr 1
    refine eq_maxPointwise hmlen (fun i => ?_)
    have := hmget i
    simp only [vcMaxAt, List.map_cons, List.foldr_cons] at *
    omega

/-- On equal-length vectors `compareOperations` never panics. -/
theorem compareOps_isSome (o1 o2 : Operation)
    (h : o1.VersionVector.length = o2.VersionVector.length) :
    (compareOperations o1 o2).isSome := by
  rw [compareOperations, ConcurrentVersionVectors,
      compareVV_eq _ _ h, compareVV_eq _ _ h.symm]
  by_cases d1 : Dominates o1.VersionVector o2.VersionVector
    <;> by_cases d2 : Dominates o2.VersionVector o1.VersionVector
    <;> simp [d1, d2, compareVV_eq _ _ h]

/-- `bubbleLeft` succeeds on length-`n` operations and permutes. -/
theorem bubbleLeft_spec {n : Nat} (a : Operation) (l : List Operation)
    (ha : a.VersionVector.length = n) (hl : OpsLen n l) :
    ∃ r, bubbleLeft a l = some r ∧ r.Perm (a :: l) := by
  induction l with
  | nil => exact ⟨[a], rfl, List.Perm.refl _⟩
  | cons x rest ih =>
    have hx : x.VersionVector.length = n := hl x (by simp)
    have hcmp := compareOps_isSome x a (by omega)
    obtain ⟨b, hb⟩ := Option.isSome_iff_exists.mp hcmp
    cases b with
    | true =>
      obtain ⟨r, hr, hperm⟩ := ih (fun op hop => hl op (by simp [hop]))
      refine ⟨x :: r, ?_, ?_⟩
      · rw [bubbleLeft, hb, hr]; rfl
      · exact (hperm.cons x).trans (List.Perm.swap a x rest)
    | false =>
      refine ⟨a :: x :: rest, ?_, List.Perm.refl _⟩
      rw [bubbleLeft, hb]

/-- `sortOps` succeeds on length-`n` operations and permutes its input. -/
theorem sortOps_spec {n : Nat} (l : List Operation) (h : OpsLen n l) :
    ∃ r, sortOps l = some r ∧ r.Perm l := by
  suffices hs : ∀ l : List Operation, OpsLen n l → ∀ acc : List Operation, OpsLen n acc →
      ∃ res, l.foldlM (fun revAcc a => bubbleLeft a revAcc) acc = some res
        ∧ res.Perm (l.reverse ++ acc) by
    obtain ⟨res, hres, hperm⟩ := hs l h [] (by intro op hop; simp at hop)
    refine ⟨res.reverse, ?_, ?_⟩
    · rw [sortOps, hres]; rfl
    · have h1 : res.reverse.Perm res := List.reverse_perm res
      have h2 : (l.reverse ++ ([] : List Operation)).Perm l := by
        rw [List.append_nil]
        exact List.reverse_perm l
      exact h1.trans (hperm.trans h2)
  intro l hlen
  induction l with
  | nil =>
    intro acc hacc
    exact ⟨acc, by simp, List.Perm.refl acc⟩
  | cons a l ih =>
    intro acc hacc
    have ha : a.VersionVector.length = n := hlen a (by simp)
    obtain ⟨r, hr, hperm⟩ := bubbleLeft_spec a acc ha hacc
    have hrlen : OpsLen n r := by
      intro op hop
      rcases List.mem_cons.mp (hperm.mem_iff.mp hop) with h1 | h1
      · rw [h1]; exact ha
      · exact hacc op h1
    obtain ⟨res, hres, hperm2⟩ := ih (fun op hop => hlen op (by simp [hop])) r hrlen
    refine ⟨res, ?_, ?_⟩
    · rw [List.foldlM_cons, hr]; simpa using hres
    · refine hperm2.trans ?_
      refine (hperm.append_left l.reverse).trans ?_
      rw [List.reverse_cons, List.append_assoc]
      exact List.Perm.refl _

/-- Members of the deduplicated list come from the original. -/
theorem dedupAdjAux_subset (prev : Operation) (l : List Operation) :
    ∀ x ∈ dedupAdjAux prev l, x ∈ l := by
  induction l generalizing prev with
  | nil => intro x hx; simp [dedupAdjAux] at hx
  | cons b rest ih =>
    intro x hx
    rw [dedupAdjAux] at hx
    by_cases hb : equalOperations prev b
    · rw [if_pos hb] at hx
      exact List.mem_cons_of_mem b (ih b x hx)
    · rw [if_neg hb] at hx
      rcases List.mem_cons.mp hx with h1 | h1
      · simp [h1]
      · exact List.mem_cons_of_mem b (ih b x h1)

/-- `removeDuplicateOperationsAndSort` succeeds on length-`n` operations
and returns members of its input. -/
theorem removeDup_spec {n : Nat} (s : List Operation) (h : OpsLen n s) :
    ∃ r, removeDuplicateOperationsAndSort s = some r ∧ ∀ x ∈ r, x ∈ s := by
  rw [removeDuplicateOperationsAndSort]
  by_cases hlen : s.length < 1
  · exact ⟨s, by rw [if_pos hlen], fun x hx => hx⟩
  · rw [if_neg hlen]
    obtain ⟨r, hr, hperm⟩ := sortOps_spec s h
    cases r with
    | nil => exact ⟨[], by rw [hr], by simp⟩
    | cons a rest =>
      refine ⟨a :: dedupAdjAux a rest, by rw [hr], ?_⟩
      intro x hx
      rcases List.mem_cons.mp hx with h1 | h1
      · exact hperm.mem_iff.mp (by simp [h1])
      · exact hperm.mem_iff.mp
          (List.mem_cons_of_mem a (dedupAdjAux_subset a rest x h1))

/-- `mergePendingOperations` succeeds on length-`n` operations and returns
operations from the two inputs. -/
theorem mergePending_spec {n : Nat} (l1 l2 : List Operation)
    (h1 : OpsLen n l1) (h2 : OpsLen n l2) :
    ∃ r, mergePendingOperations l1 l2 = some r ∧ ∀ x ∈ r, x ∈ l1 ++ l2 := by
  have h12 : OpsLen n (l1 ++ l2) := by
    intro op hop
    rcases List.mem_append.mp hop with h | h
    · exact h1 op h
    · exact h2 op h
  obtain ⟨r, hr, hperm⟩ := sortOps_spec (l1 ++ l2) h12
  have hrl : OpsLen n r := fun op hop => h12 op (hperm.mem_iff.mp hop)
  obtain ⟨r2, hr2, hsub⟩ := removeDup_spec r hrl
  refine ⟨r2, ?_, fun x hx => hperm.mem_iff.mp (hsub x hx)⟩
  rw [mergePendingOperations, hr]
  exact hr2

/-- The admission loop succeeds on length-`n` inputs; the resulting log is
the input log extended by admitted pending operations, and the leftover
pending suffix comes from the pending input. -/
theorem applyPendingLoop_spec {n : Nat} (sid : Nat) :
    ∀ (pending performed : List Operation) (latest : List Nat),
    OpsLen n pending → OpsLen n performed → latest.length = n →
    ∃ news lat rest,
      applyPendingLoop sid pending performed latest
        = some (performed ++ news, lat, rest)
      ∧ (∀ x ∈ news, x ∈ pending) ∧ lat.length = n ∧ (∀ x ∈ rest, x ∈ pending) := by
  intro pending
  induction pending with
  | nil =>
    intro performed latest _ _ hlat
    exact ⟨[], latest, [], by simp [applyPendingLoop], by simp, hlat, by simp⟩
  | cons op rest ih =>
    intro performed latest hp ho hlat
    have hop : op.VersionVector.length = n := hp op (by simp)
    have hrest : OpsLen n rest := fun x hx => hp x (by simp [hx])
    rw [applyPendingLoop, compareVV_eq latest op.VersionVector (by omega)]
    by_cases hdom : Dominates latest op.VersionVector
    · obtain ⟨news, lat, rem, hloop, hnews, hlatlen, hrem⟩ :=
        ih performed latest hrest ho hlat
      refine ⟨news, lat, rem, ?_, fun x hx => by simp [hnews x hx], hlatlen,
              fun x hx => by simp [hrem x hx]⟩
      simpa [hdom] using hloop
    · rw [decide_eq_false hdom]
      obtain ⟨b, hb⟩ := Option.isSome_iff_exists.mp
        (oneOffAux_isSome sid latest op.VersionVector 0 true (by omega))
      rw [show oneOffVersionVector sid latest op.VersionVector
            = oneOffAux sid 0 true latest op.VersionVector from rfl, hb]
      cases b with
      | true =>
        have hpo : OpsLen n (performed ++ [op]) := by
          intro x hx
          rcases List.mem_append.mp hx with h | h
          · exact ho x h
          · simp at h; rw [h]; exact hop
        rw [opsGetMax_spec hpo (by simp)]
        obtain ⟨news, lat, rem, hloop, hnews, hlatlen, hrem⟩ :=
          ih (performed ++ [op]) (maxPointwise n (performed ++ [op])) hrest hpo
            (by simp [maxPointwise])
        refine ⟨op :: news, lat, rem, ?_, ?_, hlatlen,
                fun x hx => by simp [hrem x hx]⟩
        · rw [show performed ++ op :: news = (performed ++ [op]) ++ news by simp]
          exact hloop
        · intro x hx
          rcases List.mem_cons.mp hx with h | h
          · simp [h]
          · simp [hnews x h]
      | false =>
        exact ⟨[], latest, op :: rest, by simp, by simp, hlat, fun x hx => hx⟩

/-- `ReceiveGossip` with a non-empty request on a well-formed state
completes, preserves the identity fields, and re-establishes the clock as
the pointwise maximum of the log it produces. -/
theorem receiveGossip_spec (s : Server) (req : GossipRequest)
    (hne : ¬ req.Operations = [])
    (hO : OpsLen s.Peers s.OperationsPerformed)
    (hP : OpsLen s.Peers s.PendingOperations)
    (hR : OpsLen s.Peers req.Operations) :
    ∃ s', ReceiveGossip s req = some s'
      ∧ s'.Id = s.Id ∧ s'.Peers = s.Peers ∧ s'.MyOperations = s.MyOperations
      ∧ OpsLen s.Peers s'.OperationsPerformed
      ∧ OpsLen s.Peers s'.PendingOperations
      ∧ (s'.OperationsPerformed = [] →
          (s.OperationsPerformed = [] ∧ s'.VectorClock = s.VectorClock
            ∧ s'.Data = s.Data))
      ∧ (¬ s'.OperationsPerformed = [] →
          s'.VectorClock = maxPointwise s.Peers s'.OperationsPerformed) := by
  obtain ⟨pend, hpend, hpendsub⟩ :=
    mergePending_spec req.Operations s.PendingOperations hR hP
  have hpendlen : OpsLen s.Peers pend := by
    intro x hx
    rcases List.mem_append.mp (hpendsub x hx) with h | h
    · exact hR x h
    · exact hP x h
  have hlatest : ∃ latest,
      (if s.OperationsPerformed = [] then some (List.replicate s.Peers 0)
       else operationsGetMaxVersionVector s.OperationsPerformed) = some latest
      ∧ latest.length = s.Peers := by
    by_cases ho : s.OperationsPerformed = []
    · exact ⟨List.replicate s.Peers 0, by rw [if_pos ho], by simp⟩
    · exact ⟨maxPointwise s.Peers s.OperationsPerformed,
             by rw [if_neg ho, opsGetMax_spec hO ho], by simp [maxPointwise]⟩
  obtain ⟨latest, hlat, hlatlen⟩ := hlatest
  obtain ⟨news, lat, rem, hloop, hnews, hlatlen2, hrem⟩ :=
    applyPendingLoop_spec s.Id pend s.OperationsPerformed latest hpendlen hO hlatlen
  have hperflen : OpsLen s.Peers (s.OperationsPerformed ++ news) := by
    intro x hx
    rcases List.mem_append.mp hx with h | h
    · exact hO x h
    · exact hpendlen x (hnews x h)
  obtain ⟨sorted, hsorted, hsperm⟩ :=
    sortOps_spec (s.OperationsPerformed ++ news) hperflen
  have hsortlen : OpsLen s.Peers sorted :=
    fun x hx => hperflen x (hsperm.mem_iff.mp hx)
  have hremlen : OpsLen s.Peers rem := fun x hx => hpendlen x (hrem x hx)
  by_cases hsnil : sorted = []
  · have hperfnil : s.OperationsPerformed ++ news = [] := by
      have := hsperm.symm
      rw [hsnil] at this
      exact this.eq_nil
    have honil : s.OperationsPerformed = [] := (List.append_eq_nil.mp hperfnil).1
    refine ⟨{ s with PendingOperations := rem, OperationsPerformed := sorted }, ?_,
            rfl, rfl, rfl, hsortlen, hremlen, fun _ => ⟨honil, rfl, rfl⟩,
            fun hcon => absurd hsnil hcon⟩
    simp only [ReceiveGossip, if_neg hne, hpend, hlat, hloop, hsorted, hsnil,
               List.getLast?_nil]
  · have hlast : sorted.getLast? = some (sorted.getLast hsnil) :=
      List.getLast?_eq_getLast sorted hsnil
    refine ⟨{ s with PendingOperations := rem, OperationsPerformed := sorted,
                     Data := (sorted.getLast hsnil).Data,
                     VectorClock := maxPointwise s.Peers sorted }, ?_,
            rfl, rfl, rfl, hsortlen, hremlen, fun hcon => absurd hcon hsnil,
            fun _ => rfl⟩
    simp only [ReceiveGossip, if_neg hne, hpend, hlat, hloop, hsorted, hlast,
               opsGetMax_spec hsortlen hsnil]


/-! ### Claim C10 (empty-list maximum is nil, guarded by ReceiveGossip) -/

/-- Claim C10, confirmed.  Both maximum helpers return `nil` (the empty
slice, `[]`) on an empty list instead of aborting, and `ReceiveGossip` on a
replica with an empty applied log substitutes the all-zero length-`N`
vector, so the whole delivery completes without a panic for any well-formed
request. -/
theorem C10_theorem :
    GetMaxVersionVector [] = some []
    ∧ operationsGetMaxVersionVector [] = some []
    ∧ (∀ (s : Server) (req : GossipRequest),
        s.OperationsPerformed = [] →
        OpsLen s.Peers s.PendingOperations →
        OpsLen s.Peers req.Operations →
        (ReceiveGossip s req).isSome) := by
  refine ⟨rfl, rfl, ?_⟩
  intro s req hO hP hR
  by_cases hne : req.Operations = []
  · rw [ReceiveGossip, if_pos hne]; rfl
  · obtain ⟨s', hs', -⟩ := receiveGossip_spec s req hne
      (by rw [hO]; intro op hop; simp at hop) hP hR
    rw [hs']; rfl

/-- Claim C10, witness: an empty replica 1 receiving the single `[2,0,0]`
operation completes (the operation just becomes pending). -/
theorem C10_witness :
    (New 1 3).OperationsPerformed = []
    ∧ OpsLen (New 1 3).Peers (New 1 3).PendingOperations
    ∧ OpsLen (New 1 3).Peers
        ({ ServerId := 0, Operations := [s6op2] } : GossipRequest).Operations
    ∧ (ReceiveGossip (New 1 3) { ServerId := 0, Operations := [s6op2] }).isSome :=
  ⟨rfl, by intro op hop; simp [New] at hop,
   by intro op hop; simp only [List.mem_singleton] at hop; rw [hop]; rfl,
   C10_theorem.2.2 (New 1 3) { ServerId := 0, Operations := [s6op2] } rfl
     (by intro op hop; simp [New] at hop)
     (by intro op hop; simp only [List.mem_singleton] at hop; rw [hop]; rfl)⟩

/-! ### Claim C8 (clock consistency) -/

/-- Clock-consistency invariant of claim C8: the clock is the pointwise
maximum of the applied log's version vectors when the log is non-empty, and
all zeros when it is empty. -/
def ClockInv (s : Server) : Prop :=
  (s.OperationsPerformed = [] → s.VectorClock = List.replicate s.Peers 0)
  ∧ (¬ s.OperationsPerformed = [] →
      s.VectorClock = maxPointwise s.Peers s.OperationsPerformed)

/-- Claim C8, confirmed: both `ProcessClientRequest` and `ReceiveGossip`
preserve the clock-consistency invariant on well-formed states whenever
they complete. -/
theorem C8_theorem :
    (∀ (s : Server) (req : ClientRequest) (s' : Server) (reply : ClientReply),
        s.VectorClock.length = s.Peers →
        OpsLen s.Peers s.OperationsPerformed →
        ClockInv s →
        ProcessClientRequest s req = some (s', reply) →
        ClockInv s')
    ∧ (∀ (s : Server) (req : GossipRequest) (s' : Server),
        OpsLen s.Peers s.OperationsPerformed →
        OpsLen s.Peers s.PendingOperations →
        OpsLen s.Peers req.Operations →
        ClockInv s →
        ReceiveGossip s req = some s' →
        ClockInv s') := by
  constructor
  · intro s req s' reply hv hO hinv hrun
    rw [ProcessClientRequest] at hrun
    cases hdc : DependencyCheck s.VectorClock req with
    | none => rw [hdc] at hrun; exact absurd hrun (by simp)
    | some b =>
      rw [hdc] at hrun
      cases b with
      | false =>
        simp only [Option.some.injEq, Prod.mk.injEq] at hrun
        rw [← hrun.1]
        exact hinv
      | true =>
        by_cases hk : req.OperationType = OpKind.Read
        · rw [if_pos hk] at hrun
          cases hg : GetMaxVersionVector [req.ReadVector, s.VectorClock] with
          | none => rw [hg] at hrun; exact absurd hrun (by simp)
          | some rv =>
            rw [hg] at hrun
            simp only [Option.some.injEq, Prod.mk.injEq] at hrun
            rw [← hrun.1]
            exact hinv
        · rw [if_neg hk] at hrun
          by_cases hid : s.Id < s.VectorClock.length
          · rw [if_pos hid] at hrun
            simp only [Option.some.injEq, Prod.mk.injEq] at hrun
            rw [← hrun.1]
            constructor
            · intro hnil; simp at hnil
            · intro _
              show s.VectorClock.set s.Id (s.VectorClock.getD s.Id 0 + 1)
                  = maxPointwise s.Peers (s.OperationsPerformed ++
                      [{ OperationType := OpKind.Write,
                         VersionVector :=
                           s.VectorClock.set s.Id (s.VectorClock.getD s.Id 0 + 1),
                         TieBreaker := s.Id, Data := req.Data }])
              have hsub : ∀ i, s.VectorClock.getD i 0
                  ≤ (s.VectorClock.set s.Id (s.VectorClock.getD s.Id 0 + 1)).getD i 0 := by
                intro i
                by_cases hii : s.Id = i
                · rw [← hii, getD_set_eq _ _ _ hid]; omega
                · rw [getD_set_ne _ _ _ _ hii]
              have hmaxle : ∀ i, vcMaxAt s.OperationsPerformed i
                  ≤ s.VectorClock.getD i 0 := by
                intro i
                by_cases ho : s.OperationsPerformed = []
                · rw [ho]; simp [vcMaxAt]
                · rw [hinv.2 ho, getD_maxPointwise hO]
              refine eq_maxPointwise (by rw [List.length_set]; exact hv) (fun i => ?_)
              rw [vcMaxAt_append]
              have h1 := hsub i
              have h2 := hmaxle i
              have h3 : vcMaxAt
                  [{ OperationType := OpKind.Write,
                     VersionVector := s.VectorClock.set s.Id (s.VectorClock.getD s.Id 0 + 1),
                     TieBreaker := s.Id, Data := req.Data }] i
                  = (s.VectorClock.set s.Id (s.VectorClock.getD s.Id 0 + 1)).getD i 0 := by
                simp [vcMaxAt]
              omega
          · rw [if_neg hid] at hrun
            exact absurd hrun (by simp)
  · intro s req s' hO hP hR hinv hrun
    by_cases hne : req.Operations = []
    · rw [ReceiveGossip, if_pos hne] at hrun
      simp only [Option.some.injEq] at hrun
      rw [← hrun]
      exact hinv
    · obtain ⟨s2, hs2, hid, hpeers, hmy, hOl, hPl, hemp, hnemp⟩ :=
        receiveGossip_spec s req hne hO hP hR
      rw [hs2] at hrun
      simp only [Option.some.injEq] at hrun
      rw [← hrun]
      constructor
      · intro hnil
        obtain ⟨ho, hvc, -⟩ := hemp hnil
        rw [hvc, hpeers]
        exact hinv.1 ho
      · intro hne2
        rw [hnemp hne2, hpeers]

/-- Claim C8, witness: a write at a fresh replica 0 and a gossip delivery
at a fresh replica 1, both preserving clock consistency. -/
theorem C8_witness :
    (New 0 2).VectorClock.length = (New 0 2).Peers
    ∧ OpsLen (New 0 2).Peers (New 0 2).OperationsPerformed
    ∧ ClockInv (New 0 2)
    ∧ ProcessClientRequest (New 0 2) (mkRequest OpKind.Write Causal 5 [0,0] [0,0])
      = some ({ New 0 2 with VectorClock := [1,0],
                             OperationsPerformed := [⟨OpKind.Write, [1,0], 0, 5⟩],
                             MyOperations := [⟨OpKind.Write, [1,0], 0, 5⟩],
                             Data := 5 },
              { Succeeded := true, OperationType := OpKind.Write, Data := 5,
                ReadVector := [0,0], WriteVector := [1,0] })
    ∧ ClockInv { New 0 2 with VectorClock := [1,0],
                              OperationsPerformed := [⟨OpKind.Write, [1,0], 0, 5⟩],
                              MyOperations := [⟨OpKind.Write, [1,0], 0, 5⟩],
                              Data := 5 }
    ∧ OpsLen (New 1 3).Peers (New 1 3).OperationsPerformed
    ∧ ClockInv (New 1 3)
    ∧ ReceiveGossip (New 1 3) { ServerId := 0, Operations := [s6op1] }
      = some { New 1 3 with VectorClock := [1,0,0],
                            OperationsPerformed := [s6op1], Data := 7 }
    ∧ ClockInv { New 1 3 with VectorClock := [1,0,0],
                              OperationsPerformed := [s6op1], Data := 7 } := by
  have hinv0 : ClockInv (New 0 2) := ⟨fun _ => rfl, fun h => absurd rfl h⟩
  have hinv1 : ClockInv (New 1 3) := ⟨fun _ => rfl, fun h => absurd rfl h⟩
  refine ⟨rfl, by intro op hop; simp [New] at hop, hinv0, by decide, ?_,
          by intro op hop; simp [New] at hop, hinv1, by decide, ?_⟩
  · exact C8_theorem.1 (New 0 2) (mkRequest OpKind.Write Causal 5 [0,0] [0,0])
      { New 0 2 with VectorClock := [1,0],
                     OperationsPerformed := [⟨OpKind.Write, [1,0], 0, 5⟩],
                     MyOperations := [⟨OpKind.Write, [1,0], 0, 5⟩],
                     Data := 5 }
      { Succeeded := true, OperationType := OpKind.Write, Data := 5,
        ReadVector := [0,0], WriteVector := [1,0] }
      rfl (by intro op hop; simp [New] at hop) hinv0 (by decide)
  · exact C8_theorem.2 (New 1 3) { ServerId := 0, Operations := [s6op1] }
      { New 1 3 with VectorClock := [1,0,0],
                     OperationsPerformed := [s6op1], Data := 7 }
      (by intro op hop; simp [New] at hop) (by intro op hop; simp [New] at hop)
      (by intro op hop; simp only [List.mem_singleton] at hop; rw [hop]; rfl)
      hinv1 (by decide)


/-! ### Claim C7: order-theoretic machinery for the sort -/

/-- The operation order induced by the comparator: `leOp a b` means `a`
sorts no later than `b` (the comparator deems `b` greater-or-equal). -/
def leOp (a b : Operation) : Prop := compareOperations b a = some true

/-- Strict version of `leOp`. -/
def ltOp (a b : Operation) : Prop := leOp a b ∧ ¬ a = b

/-- The comparator deems every operation greater-or-equal to itself. -/
theorem compareOperations_self (a : Operation) : compareOperations a a = some true := by
  have h := compareVV_eq a.VersionVector a.VersionVector rfl
  have hd : Dominates a.VersionVector a.VersionVector := fun i _ => Nat.le_refl _
  rw [compareOperations, ConcurrentVersionVectors, h]
  simp [hd]

/-- Hypothesis under which the comparator behaves as a strict total order
on the operations in play: asymmetry-totality on distinct operations and
transitivity.  The concrete counterexample shows this can fail for
reachable operations (the comparator has cycles), and then idempotence
fails with it. -/
def OrderedOn (U : List Operation) : Prop :=
  (∀ a ∈ U, ∀ b ∈ U, ¬ a = b →
      (compareOperations a b = some true ↔ ¬ compareOperations b a = some true))
  ∧ (∀ a ∈ U, ∀ b ∈ U, ∀ c ∈ U,
      compareOperations a b = some true → compareOperations b c = some true →
      compareOperations a c = some true)

instance (n : Nat) (l : List Operation) : Decidable (OpsLen n l) :=
  List.decidableBAll _ l

instance (U : List Operation) : Decidable (OrderedOn U) :=
  instDecidableAnd

/-- Totality: for distinct operations in play, a non-`true` comparison one
way forces `true` the other way. -/
theorem orderedOn_total {U : List Operation} (h : OrderedOn U)
    {a b : Operation} (ha : a ∈ U) (hb : b ∈ U) (hne : ¬ a = b)
    (hf : ¬ compareOperations a b = some true) :
    compareOperations b a = some true := by
  by_contra hc
  exact hf ((h.1 a ha b hb hne).mpr hc)

/-- `equalOperations` is full structural equality. -/
theorem equalOperations_iff (x y : Operation) :
    equalOperations x y = true ↔ x = y := by
  cases x with
  | mk xk xv xt xd =>
    cases y with
    | mk yk yv yt yd =>
      simp only [equalOperations, Bool.and_eq_true, decide_eq_true_eq,
                 Operation.mk.injEq]
      tauto

/-- `bubbleLeft` preserves the reverse-sortedness of the accumulator. -/
theorem bubbleLeft_sorted {U : List Operation} (hU : OrderedOn U)
    {n : Nat} (a : Operation) (l : List Operation)
    (ha : a.VersionVector.length = n) (hl : OpsLen n l)
    (haU : a ∈ U) (hlU : ∀ x ∈ l, x ∈ U)
    (hsorted : l.Pairwise (fun x y => leOp y x)) :
    ∀ r, bubbleLeft a l = some r → r.Pairwise (fun x y => leOp y x) := by
  induction l with
  | nil =>
    intro r hr
    rw [bubbleLeft] at hr
    simp only [Option.some.injEq] at hr
    rw [← hr]
    simp
  | cons x rest ih =>
    intro r hr
    have hx : x.VersionVector.length = n := hl x (by simp)
    have hcmp := compareOps_isSome x a (by omega)
    obtain ⟨b, hb⟩ := Option.isSome_iff_exists.mp hcmp
    rw [bubbleLeft, hb] at hr
    cases b with
    | true =>
      cases hbl : bubbleLeft a rest with
      | none => rw [hbl] at hr; exact absurd hr (by simp)
      | some r2 =>
        rw [hbl] at hr
        have hr' : x :: r2 = r := by simpa using hr
        rw [← hr']
        have hrest : rest.Pairwise (fun x y => leOp y x) := hsorted.of_cons
        have hr2 := ih (fun op hop => hl op (by simp [hop]))
          (fun op hop => hlU op (by simp [hop])) hrest r2 hbl
        obtain ⟨r3, hr3, hperm3⟩ := bubbleLeft_spec (n := n) a rest ha
          (fun op hop => hl op (by simp [hop]))
        rw [hbl] at hr3
        have h23 : r2 = r3 := by injection hr3
        refine List.Pairwise.cons ?_ hr2
        intro y hy
        rw [h23] at hy
        rcases List.mem_cons.mp (hperm3.mem_iff.mp hy) with h1 | h1
        · rw [h1]
          exact hb
        · exact List.rel_of_pairwise_cons hsorted h1
    | false =>
      simp only [Option.some.injEq] at hr
      rw [← hr]
      have hxa : ¬ x = a := by
        intro he
        rw [he, compareOperations_self a] at hb
        simp at hb
      have hax : compareOperations a x = some true := by
        refine orderedOn_total hU (hlU x (by simp)) haU
          hxa ?_
        rw [hb]; simp
      refine List.Pairwise.cons ?_ hsorted
      intro y hy
      rcases List.mem_cons.mp hy with h1 | h1
      · rw [h1]; exact hax
      · exact hU.2 a haU x (hlU x (by simp)) y (hlU y (by simp [h1])) hax
          (List.rel_of_pairwise_cons hsorted h1)

/-- `sortOps` produces a list sorted under `leOp`. -/
theorem sortOps_sorted {U : List Operation} (hU : OrderedOn U)
    {n : Nat} (l : List Operation) (hlen : OpsLen n l) (hlU : ∀ x ∈ l, x ∈ U) :
    ∀ r, sortOps l = some r → r.Pairwise leOp := by
  suffices hs : ∀ l : List Operation, OpsLen n l → (∀ x ∈ l, x ∈ U) →
      ∀ acc : List Operation, OpsLen n acc → (∀ x ∈ acc, x ∈ U) →
      acc.Pairwise (fun x y => leOp y x) →
      ∀ res, l.foldlM (fun revAcc a => bubbleLeft a revAcc) acc = some res →
        res.Pairwise (fun x y => leOp y x) by
    intro r hr
    rw [sortOps] at hr
    cases hf : l.foldlM (fun revAcc a => bubbleLeft a revAcc) [] with
    | none => rw [hf] at hr; exact absurd hr (by simp)
    | some res =>
      rw [hf] at hr
      have hr' : res.reverse = r := by simpa using hr
      rw [← hr']
      have := hs l hlen hlU [] (by intro op hop; simp at hop)
        (by intro op hop; simp at hop) (by simp) res hf
      exact (List.pairwise_reverse).mpr this
  clear hlen hlU
  intro l hlen hlU
  induction l with
  | nil =>
    intro acc _ _ hsorted res hres
    simp only [List.foldlM_nil] at hres
    cases hres
    exact hsorted
  | cons a l ih =>
    intro acc hacc haccU hsorted res hres
    have ha : a.VersionVector.length = n := hlen a (by simp)
    obtain ⟨r, hr, hperm⟩ := bubbleLeft_spec a acc ha hacc
    have hrlen : OpsLen n r := by
      intro op hop
      rcases List.mem_cons.mp (hperm.mem_iff.mp hop) with h1 | h1
      · rw [h1]; exact ha
      · exact hacc op h1
    have hrU : ∀ x ∈ r, x ∈ U := by
      intro op hop
      rcases List.mem_cons.mp (hperm.mem_iff.mp hop) with h1 | h1
      · rw [h1]; exact hlU a (by simp)
      · exact haccU op h1
    have hrsorted := bubbleLeft_sorted hU a acc ha hacc (hlU a (by simp)) haccU
      hsorted r hr
    rw [List.foldlM_cons, hr] at hres
    exact ih (fun op hop => hlen op (by simp [hop]))
      (fun op hop => hlU op (by simp [hop])) r hrlen hrU hrsorted res (by simpa using hres)

/-- Adjacent deduplication preserves the member set. -/
theorem dedupAdjAux_mem (prev : Operation) (l : List Operation) :
    ∀ x, x ∈ prev :: dedupAdjAux prev l ↔ x ∈ prev :: l := by
  induction l generalizing prev with
  | nil => intro x; rfl
  | cons b rest ih =>
    intro x
    rw [dedupAdjAux]
    by_cases hb : equalOperations prev b
    · rw [if_pos hb]
      have hpb : prev = b := (equalOperations_iff prev b).mp hb
      subst hpb
      have h1 := ih prev x
      simp only [List.mem_cons] at *
      tauto
    · rw [if_neg hb]
      have h1 := ih b x
      simp only [List.mem_cons] at *
      tauto

/-- Adjacent deduplication of a `leOp`-sorted list yields a strictly
sorted list. -/
theorem dedupAdj_pairwise {U : List Operation} (hU : OrderedOn U) :
    ∀ (l : List Operation) (prev : Operation),
    (∀ x ∈ prev :: l, x ∈ U) →
    (prev :: l).Pairwise leOp →
    (prev :: dedupAdjAux prev l).Pairwise ltOp := by
  intro l
  induction l with
  | nil =>
    intro prev _ _
    simp [dedupAdjAux]
  | cons b rest ih =>
    intro prev hsub hsorted
    rw [dedupAdjAux]
    by_cases hb : equalOperations prev b
    · rw [if_pos hb]
      have hpb : prev = b := (equalOperations_iff prev b).mp hb
      subst hpb
      exact ih prev (fun x hx => hsub x (by
        rcases List.mem_cons.mp hx with h1 | h1
        · simp [h1]
        · simp [h1])) hsorted.of_cons
    · rw [if_neg hb]
      have hne : ¬ prev = b := fun he => hb ((equalOperations_iff prev b).mpr he)
      have hrest := ih b (fun x hx => hsub x (by
          rcases List.mem_cons.mp hx with h1 | h1
          · simp [h1]
          · simp [h1])) hsorted.of_cons
      refine List.Pairwise.cons ?_ hrest
      intro y hy
      have hymem : y ∈ b :: rest := (dedupAdjAux_mem b rest y).mp hy
      have hley : leOp prev y := List.rel_of_pairwise_cons hsorted hymem
      refine ⟨hley, ?_⟩
      rcases List.mem_cons.mp hymem with h1 | h1
      · rw [h1]; exact hne
      · intro he
        have hlepb : leOp prev b := List.rel_of_pairwise_cons hsorted (by simp)
        have hleby : leOp b y := List.rel_of_pairwise_cons hsorted.of_cons h1
        rw [← he] at hleby
        have := (hU.1 prev (hsub prev (by simp)) b (hsub b (by simp)) hne).mp hleby
        exact this hlepb

/-- Two strictly sorted lists of operations in play with the same members
are equal. -/
theorem pairwise_ltOp_unique {U : List Operation} (hU : OrderedOn U) :
    ∀ (L1 L2 : List Operation), (∀ x ∈ L1, x ∈ U) → (∀ x ∈ L2, x ∈ U) →
    L1.Pairwise ltOp → L2.Pairwise ltOp → (∀ x, x ∈ L1 ↔ x ∈ L2) → L1 = L2 := by
  intro L1
  induction L1 with
  | nil =>
    intro L2 _ _ _ _ hmem
    cases L2 with
    | nil => rfl
    | cons b L2 => exact absurd ((hmem b).mpr (by simp)) (by simp)
  | cons a L1 ih =>
    intro L2 hU1 hU2 hp1 hp2 hmem
    cases L2 with
    | nil => exact absurd ((hmem a).mp (by simp)) (by simp)
    | cons b L2 =>
      have hab : a = b := by
        by_contra hne
        have ha2 : a ∈ L2 := by
          rcases List.mem_cons.mp ((hmem a).mp (by simp)) with h1 | h1
          · exact absurd h1 hne
          · exact h1
        have hb1 : b ∈ L1 := by
          rcases List.mem_cons.mp ((hmem b).mpr (by simp)) with h1 | h1
          · exact absurd h1.symm hne
          · exact h1
        have h1 : ltOp a b := List.rel_of_pairwise_cons hp1 hb1
        have h2 : ltOp b a := List.rel_of_pairwise_cons hp2 ha2
        have := (hU.1 b (hU2 b (by simp)) a (hU1 a (by simp)) (fun he => hne he.symm)).mp h1.1
        exact this h2.1
      subst hab
      have hmem2 : ∀ x, x ∈ L1 ↔ x ∈ L2 := by
        intro x
        constructor
        · intro hx
          rcases List.mem_cons.mp ((hmem x).mp (List.mem_cons_of_mem a hx)) with h1 | h1
          · exact absurd h1.symm (List.rel_of_pairwise_cons hp1 hx).2
          · exact h1
        · intro hx
          rcases List.mem_cons.mp ((hmem x).mpr (List.mem_cons_of_mem a hx)) with h1 | h1
          · exact absurd h1.symm (List.rel_of_pairwise_cons hp2 hx).2
          · exact h1
      rw [ih L2 (fun x hx => hU1 x (by simp [hx])) (fun x hx => hU2 x (by simp [hx]))
            hp1.of_cons hp2.of_cons hmem2]

/-- Sorting an already strictly sorted list is the identity. -/
theorem sortOps_of_sorted {U : List Operation} (hU : OrderedOn U)
    {n : Nat} (l : List Operation) (hlen : OpsLen n l) (hsub : ∀ x ∈ l, x ∈ U)
    (hpair : l.Pairwise ltOp) : sortOps l = some l := by
  obtain ⟨r, hr, hperm⟩ := sortOps_spec l hlen
  have hsorted := sortOps_sorted hU l hlen hsub r hr
  have hnodupl : l.Nodup := hpair.imp (fun h => h.2)
  have hnodupr : r.Nodup := hperm.nodup_iff.mpr hnodupl
  have hpairr : r.Pairwise ltOp := hsorted.and hnodupr
  rw [hr,
      pairwise_ltOp_unique hU r l (fun x hx => hsub x (hperm.mem_iff.mp hx)) hsub
        hpairr hpair (fun x => hperm.mem_iff)]

/-- `removeDuplicateOperationsAndSort` yields the strictly sorted list of
the input's members. -/
theorem removeDup_strong {U : List Operation} (hU : OrderedOn U)
    {n : Nat} (s : List Operation) (hlen : OpsLen n s) (hsub : ∀ x ∈ s, x ∈ U) :
    ∃ r, removeDuplicateOperationsAndSort s = some r ∧ r.Pairwise ltOp
      ∧ (∀ x, x ∈ r ↔ x ∈ s) := by
  rw [removeDuplicateOperationsAndSort]
  by_cases h0 : s.length < 1
  · have hs : s = [] := List.eq_nil_of_length_eq_zero (by omega)
    refine ⟨s, by rw [if_pos h0], by rw [hs]; simp, fun x => Iff.rfl⟩
  · rw [if_neg h0]
    obtain ⟨r, hr, hperm⟩ := sortOps_spec s hlen
    have hsorted := sortOps_sorted hU s hlen hsub r hr
    cases r with
    | nil =>
      have : s = [] := hperm.symm.eq_nil
      rw [this] at h0
      simp at h0
    | cons a rest =>
      have hsubr : ∀ x ∈ a :: rest, x ∈ U :=
        fun x hx => hsub x (hperm.mem_iff.mp hx)
      refine ⟨a :: dedupAdjAux a rest, by rw [hr], ?_, ?_⟩
      · exact dedupAdj_pairwise hU rest a hsubr hsorted
      · intro x
        rw [dedupAdjAux_mem a rest x]
        exact hperm.mem_iff

/-- `mergePendingOperations` yields the strictly sorted list of the two
inputs' members. -/
theorem mergePending_strong {U : List Operation} (hU : OrderedOn U)
    {n : Nat} (l1 l2 : List Operation) (h1 : OpsLen n l1) (h2 : OpsLen n l2)
    (hsub : ∀ x ∈ l1 ++ l2, x ∈ U) :
    ∃ r, mergePendingOperations l1 l2 = some r ∧ r.Pairwise ltOp
      ∧ (∀ x, x ∈ r ↔ x ∈ l1 ++ l2) := by
  have h12 : OpsLen n (l1 ++ l2) := by
    intro op hop
    rcases List.mem_append.mp hop with h | h
    · exact h1 op h
    · exact h2 op h
  obtain ⟨r, hr, hperm⟩ := sortOps_spec (l1 ++ l2) h12
  have hrl : OpsLen n r := fun op hop => h12 op (hperm.mem_iff.mp hop)
  have hrU : ∀ x ∈ r, x ∈ U := fun x hx => hsub x (hperm.mem_iff.mp hx)
  obtain ⟨r2, hr2, hpair2, hmem2⟩ := removeDup_strong hU r hrl hrU
  refine ⟨r2, ?_, hpair2, fun x => (hmem2 x).trans hperm.mem_iff⟩
  rw [mergePendingOperations, hr]
  exact hr2


/-! ### Claim C7: the admission loop in detail -/

/-- `vcMaxAt` is invariant under permutation. -/
theorem vcMaxAt_perm {l1 l2 : List Operation} (h : l1.Perm l2) (i : Nat) :
    vcMaxAt l1 i = vcMaxAt l2 i := by
  induction h with
  | nil => rfl
  | cons x _ ih =>
    simp only [vcMaxAt, List.map_cons, List.foldr_cons] at *
    omega
  | swap x y l =>
    simp only [vcMaxAt, List.map_cons, List.foldr_cons]
    omega
  | trans _ _ ih1 ih2 => omega

/-- `maxPointwise` is invariant under permutation. -/
theorem maxPointwise_perm {n : Nat} {l1 l2 : List Operation} (h : l1.Perm l2) :
    maxPointwise n l1 = maxPointwise n l2 := by
  simp only [maxPointwise]
  congr 1
  funext i
  exact vcMaxAt_perm h i

/-- A member's coordinate is below the running maximum. -/
theorem vcMaxAt_ge_mem {ops : List Operation} {x : Operation} (hx : x ∈ ops) (i : Nat) :
    x.VersionVector.getD i 0 ≤ vcMaxAt ops i := by
  induction ops with
  | nil => simp at hx
  | cons o rest ih =>
    simp only [vcMaxAt, List.map_cons, List.foldr_cons]
    rcases List.mem_cons.mp hx with h1 | h1
    · rw [h1]
      omega
    · have := ih h1
      simp only [vcMaxAt] at this
      omega

/-- The pointwise maximum dominates every member's vector. -/
theorem dominates_maxPointwise_mem {n : Nat} {ops : List Operation}
    (h : OpsLen n ops) {x : Operation} (hx : x ∈ ops) :
    Dominates (maxPointwise n ops) x.VersionVector := by
  intro i hi
  rw [getD_maxPointwise h i]
  exact vcMaxAt_ge_mem hx i

/-- Domination is monotone in the dominating side. -/
theorem dominates_mono {l1 l2 v : List Nat}
    (h12 : ∀ i, l1.getD i 0 ≤ l2.getD i 0) (h : Dominates l1 v) :
    Dominates l2 v := by
  intro i hi
  exact Nat.le_trans (h i hi) (h12 i)

/-- Reading a zero-filled vector gives 0 everywhere. -/
theorem getD_replicate_zero (n i : Nat) : (List.replicate n 0).getD i 0 = 0 := by
  induction n generalizing i with
  | zero => simp
  | succ n ih =>
    cases i with
    | zero => simp [List.replicate]
    | succ i =>
      rw [List.replicate, List.getD_cons_succ]
      exact ih i

/-- Fine-grained specification of the admission loop: the pending list
splits into a consumed prefix `done` and the returned suffix; the admitted
operations `news` come from `done`; afterwards the final `lat` dominates
everything consumed and everything in the log; `lat` is unchanged when
nothing was admitted and is the log's pointwise maximum otherwise; and the
returned suffix's head is stuck against `lat`. -/
theorem applyPendingLoop_strong {n : Nat} (sid : Nat) :
    ∀ (pending performed : List Operation) (latest : List Nat),
    OpsLen n pending → OpsLen n performed → latest.length = n →
    ((performed = [] ∧ latest = List.replicate n 0)
      ∨ latest = maxPointwise n performed) →
    performed.Nodup →
    ∃ done news lat rest,
      applyPendingLoop sid pending performed latest = some (performed ++ news, lat, rest)
      ∧ pending = done ++ rest
      ∧ (∀ x ∈ news, x ∈ done)
      ∧ lat.length = n
      ∧ (∀ i, latest.getD i 0 ≤ lat.getD i 0)
      ∧ (∀ x ∈ done, Dominates lat x.VersionVector)
      ∧ (∀ x ∈ performed ++ news, Dominates lat x.VersionVector)
      ∧ (performed ++ news).Nodup
      ∧ (news = [] → lat = latest)
      ∧ (¬ news = [] → lat = maxPointwise n (performed ++ news))
      ∧ (∀ r0 rrest, rest = r0 :: rrest →
          (¬ Dominates lat r0.VersionVector
           ∧ oneOffVersionVector sid lat r0.VersionVector = some false)) := by
  intro pending
  induction pending with
  | nil =>
    intro performed latest _ hO hlat hinv hnodup
    have hcov : ∀ x ∈ performed, Dominates latest x.VersionVector := by
      rcases hinv with ⟨hperf, -⟩ | hmax
      · rw [hperf]; intro x hx; simp at hx
      · rw [hmax]; intro x hx; exact dominates_maxPointwise_mem hO hx
    exact ⟨[], [], latest, [], by simp [applyPendingLoop], by simp, by simp, hlat,
           fun i => Nat.le_refl _, by simp, by simpa using hcov, by simpa using hnodup,
           fun _ => rfl, fun hc => absurd rfl hc, fun r0 rr h => by simp at h⟩
  | cons op rest ih =>
    intro performed latest hp hO hlat hinv hnodup
    have hop : op.VersionVector.length = n := hp op (by simp)
    have hrest : OpsLen n rest := fun x hx => hp x (by simp [hx])
    have hcov : ∀ x ∈ performed, Dominates latest x.VersionVector := by
      rcases hinv with ⟨hperf, -⟩ | hmax
      · rw [hperf]; intro x hx; simp at hx
      · rw [hmax]; intro x hx; exact dominates_maxPointwise_mem hO hx
    rw [applyPendingLoop, compareVV_eq latest op.VersionVector (by omega)]
    by_cases hdom : Dominates latest op.VersionVector
    · obtain ⟨done, news, lat, rem, hloop, hsplit, hnews, hlatlen, hmono, hdone,
              hperf, hnd, hz, hnz, hstuck⟩ := ih performed latest hrest hO hlat hinv hnodup
      refine ⟨op :: done, news, lat, rem, ?_, by simp [hsplit], ?_, hlatlen, hmono,
              ?_, hperf, hnd, hz, hnz, hstuck⟩
      · simpa [hdom] using hloop
      · intro x hx
        exact List.mem_cons_of_mem op (hnews x hx)
      · intro x hx
        rcases List.mem_cons.mp hx with h1 | h1
        · rw [h1]
          exact dominates_mono hmono hdom
        · exact hdone x h1
    · rw [decide_eq_false hdom]
      obtain ⟨b, hb⟩ := Option.isSome_iff_exists.mp
        (oneOffAux_isSome sid latest op.VersionVector 0 true (by omega))
      rw [show oneOffVersionVector sid latest op.VersionVector
            = oneOffAux sid 0 true latest op.VersionVector from rfl, hb]
      cases b with
      | true =>
        have hopnew : ¬ op ∈ performed := by
          intro hmem
          rcases hinv with ⟨hperf, -⟩ | hmax
          · rw [hperf] at hmem; simp at hmem
          · exact hdom (by rw [hmax]; exact dominates_maxPointwise_mem hO hmem)
        have hpo : OpsLen n (performed ++ [op]) := by
          intro x hx
          rcases List.mem_append.mp hx with h | h
          · exact hO x h
          · simp at h; rw [h]; exact hop
        have hpnodup : (performed ++ [op]).Nodup := by
          rw [List.nodup_append]
          refine ⟨hnodup, by simp, ?_⟩
          intro x hx hxop
          simp only [List.mem_singleton] at hxop
          rw [hxop] at hx
          exact hopnew hx
        rw [opsGetMax_spec hpo (by simp)]
        have hmono1 : ∀ i, latest.getD i 0
            ≤ (maxPointwise n (performed ++ [op])).getD i 0 := by
          intro i
          rw [getD_maxPointwise hpo i]
          rcases hinv with ⟨-, hlz⟩ | hmax
          · rw [hlz, getD_replicate_zero]
            omega
          · rw [hmax, getD_maxPointwise hO i, vcMaxAt_append]
            omega
        obtain ⟨done, news, lat, rem, hloop, hsplit, hnews, hlatlen, hmono, hdone,
                hperf, hnd, hz, hnz, hstuck⟩ :=
          ih (performed ++ [op]) (maxPointwise n (performed ++ [op])) hrest hpo
            (by simp [maxPointwise]) (Or.inr rfl) hpnodup
        refine ⟨op :: done, op :: news, lat, rem, ?_, by simp [hsplit], ?_, hlatlen,
                fun i => Nat.le_trans (hmono1 i) (hmono i), ?_, ?_, ?_, ?_, ?_, hstuck⟩
        · rw [show performed ++ op :: news = (performed ++ [op]) ++ news by simp]
          exact hloop
        · intro x hx
          rcases List.mem_cons.mp hx with h1 | h1
          · simp [h1]
          · exact List.mem_cons_of_mem op (hnews x h1)
        · intro x hx
          rcases List.mem_cons.mp hx with h1 | h1
          · rw [h1]
            exact hperf op (by simp)
          · exact hdone x h1
        · intro x hx
          refine hperf x ?_
          rw [show (performed ++ [op]) ++ news = performed ++ op :: news by simp]
          exact hx
        · rw [show performed ++ op :: news = (performed ++ [op]) ++ news by simp]
          exact hnd
        · intro hc; simp at hc
        · intro _
          rw [show performed ++ op :: news = (performed ++ [op]) ++ news by simp]
          by_cases hne : news = []
          · rw [hne, List.append_nil]
            exact hz hne
          · exact hnz hne
      | false =>
        refine ⟨[], [], latest, op :: rest, by simp, by simp, by simp, hlat,
                fun i => Nat.le_refl _, by simp, by simpa using hcov,
                by simpa using hnodup, fun _ => rfl, fun hc => absurd rfl hc, ?_⟩
        intro r0 rr h
        have h0 : r0 = op := by injection h with h1 h2; exact h1.symm
        rw [h0]
        exact ⟨hdom, hb⟩

/-- The admission loop skips a prefix it already covers. -/
theorem applyPendingLoop_skip {n : Nat} (sid : Nat) (D : List Operation) :
    ∀ (rest performed : List Operation) (latest : List Nat),
    OpsLen n D → latest.length = n →
    (∀ x ∈ D, Dominates latest x.VersionVector) →
    applyPendingLoop sid (D ++ rest) performed latest
      = applyPendingLoop sid rest performed latest := by
  induction D with
  | nil => intro rest performed latest _ _ _; rw [List.nil_append]
  | cons d D ih =>
    intro rest performed latest hD hlat hdom
    have hd : d.VersionVector.length = n := hD d (by simp)
    rw [List.cons_append, applyPendingLoop,
        compareVV_eq latest d.VersionVector (by omega),
        decide_eq_true (hdom d (by simp))]
    exact ih rest performed latest (fun x hx => hD x (by simp [hx])) hlat
      (fun x hx => hdom x (by simp [hx]))

/-- The admission loop halts immediately on a stuck head. -/
theorem applyPendingLoop_stuck {n : Nat} (sid : Nat) (r0 : Operation)
    (rrest performed : List Operation) (latest : List Nat)
    (h0 : r0.VersionVector.length = n) (hlat : latest.length = n)
    (hnd : ¬ Dominates latest r0.VersionVector)
    (hoo : oneOffVersionVector sid latest r0.VersionVector = some false) :
    applyPendingLoop sid (r0 :: rrest) performed latest
      = some (performed, latest, r0 :: rrest) := by
  rw [applyPendingLoop, compareVV_eq latest r0.VersionVector (by omega),
      decide_eq_false hnd,
      show oneOffVersionVector sid latest r0.VersionVector
        = oneOffAux sid 0 true latest r0.VersionVector from rfl] at *
  rw [show oneOffAux sid 0 true latest r0.VersionVector = some false from hoo]


/-- The pointwise maximum of no operations is the zero vector. -/
theorem maxPointwise_nil (n : Nat) : maxPointwise n [] = List.replicate n 0 := by
  have h : vcMaxAt [] = fun _ => 0 := by funext i; rfl
  rw [maxPointwise, h]
  simp [List.map_const']


/-! ### Claim C7: the theorem -/

/-- Claim C7, amended: gossip delivery is idempotent provided the
comparator orders the operations in play (those of the request, the pending
set and the applied log) as a strict total order — asymmetric on distinct
operations and transitive — the applied log has no duplicates, and all
vectors have the replica's length.  Under those hypotheses a second
delivery of the same request reproduces the first delivery's state exactly
(log, clock, value and pending set).  Without the ordering proviso the
pending set can grow on redelivery (see the counterexample): the comparator
has cycles even on reachable operations, a cyclically ordered list can be
locally sorted while holding duplicates apart, and adjacent deduplication
then misses them. -/
theorem C7_theorem (s : Server) (req : GossipRequest) (s1 : Server)
    (hO : OpsLen s.Peers s.OperationsPerformed)
    (hP : OpsLen s.Peers s.PendingOperations)
    (hR : OpsLen s.Peers req.Operations)
    (hnodup : s.OperationsPerformed.Nodup)
    (hord : OrderedOn (req.Operations ++ s.PendingOperations ++ s.OperationsPerformed))
    (hrun1 : ReceiveGossip s req = some s1) :
    ReceiveGossip s1 req = some s1 := by
  by_cases hreq : req.Operations = []
  · rw [ReceiveGossip, if_pos hreq] at hrun1
    have h1 : s = s1 := by injection hrun1
    subst h1
    rw [ReceiveGossip, if_pos hreq]
  -- delivery 1, reconstructed canonically
  have hsubRP : ∀ x ∈ req.Operations ++ s.PendingOperations,
      x ∈ req.Operations ++ s.PendingOperations ++ s.OperationsPerformed := by
    intro x hx
    simp only [List.mem_append] at *
    tauto
  obtain ⟨M, hM, hMpair, hMmem⟩ :=
    mergePending_strong hord req.Operations s.PendingOperations hR hP hsubRP
  have hMlen : OpsLen s.Peers M := by
    intro x hx
    rcases List.mem_append.mp ((hMmem x).mp hx) with h | h
    · exact hR x h
    · exact hP x h
  have hMsub : ∀ x ∈ M,
      x ∈ req.Operations ++ s.PendingOperations ++ s.OperationsPerformed := by
    intro x hx
    exact hsubRP x ((hMmem x).mp hx)
  have hlat0spec : ∃ latest0,
      (if s.OperationsPerformed = [] then some (List.replicate s.Peers 0)
       else operationsGetMaxVersionVector s.OperationsPerformed) = some latest0
      ∧ latest0.length = s.Peers
      ∧ ((s.OperationsPerformed = [] ∧ latest0 = List.replicate s.Peers 0)
          ∨ latest0 = maxPointwise s.Peers s.OperationsPerformed) := by
    by_cases ho0 : s.OperationsPerformed = []
    · exact ⟨List.replicate s.Peers 0, by rw [if_pos ho0], by simp, Or.inl ⟨ho0, rfl⟩⟩
    · exact ⟨maxPointwise s.Peers s.OperationsPerformed,
             by rw [if_neg ho0, opsGetMax_spec hO ho0], by simp [maxPointwise], Or.inr rfl⟩
  obtain ⟨latest0, hlat0, hlat0len, hinv0⟩ := hlat0spec
  obtain ⟨done, news, lat1, P1, hloop1, hsplit, hnewsdone, hlat1len, hmono,
          hdonecov, hperfcov, hnodup1, hz, hnz, hstuck⟩ :=
    applyPendingLoop_strong s.Id M s.OperationsPerformed latest0 hMlen hO
      hlat0len hinv0 hnodup
  have hnewsM : ∀ x ∈ news, x ∈ M := by
    intro x hx
    rw [hsplit]
    exact List.mem_append_left P1 (hnewsdone x hx)
  have hO1len : OpsLen s.Peers (s.OperationsPerformed ++ news) := by
    intro x hx
    rcases List.mem_append.mp hx with h | h
    · exact hO x h
    · exact hMlen x (hnewsM x h)
  have hO1sub : ∀ x ∈ s.OperationsPerformed ++ news,
      x ∈ req.Operations ++ s.PendingOperations ++ s.OperationsPerformed := by
    intro x hx
    rcases List.mem_append.mp hx with h | h
    · simp only [List.mem_append]
      tauto
    · exact hMsub x (hnewsM x h)
  obtain ⟨O1s, hO1s, hO1perm⟩ := sortOps_spec (s.OperationsPerformed ++ news) hO1len
  have hO1slen : OpsLen s.Peers O1s := fun x hx => hO1len x (hO1perm.mem_iff.mp hx)
  have hO1ssub : ∀ x ∈ O1s,
      x ∈ req.Operations ++ s.PendingOperations ++ s.OperationsPerformed :=
    fun x hx => hO1sub x (hO1perm.mem_iff.mp hx)
  have hO1ssorted := sortOps_sorted hord (s.OperationsPerformed ++ news) hO1len
    hO1sub O1s hO1s
  have hO1snodup : O1s.Nodup := hO1perm.nodup_iff.mpr hnodup1
  have hO1spair : O1s.Pairwise ltOp := hO1ssorted.and hO1snodup
  -- facts about the consumed prefix and the leftover suffix
  have hMpairs := (List.pairwise_append.mp (by rw [← hsplit]; exact hMpair))
  have hP1pair : P1.Pairwise ltOp := hMpairs.2.1
  have hcross : ∀ x ∈ done, ∀ y ∈ P1, ltOp x y := hMpairs.2.2
  have hP1len : OpsLen s.Peers P1 := by
    intro x hx
    refine hMlen x ?_
    rw [hsplit]
    exact List.mem_append_right done hx
  have hP1sub : ∀ x ∈ P1,
      x ∈ req.Operations ++ s.PendingOperations ++ s.OperationsPerformed := by
    intro x hx
    refine hMsub x ?_
    rw [hsplit]
    exact List.mem_append_right done hx
  -- the latest vector that delivery 2 starts from equals lat1
  have hlat2 : (if O1s = [] then some (List.replicate s.Peers 0)
       else operationsGetMaxVersionVector O1s) = some lat1 := by
    by_cases hsnil : O1s = []
    · rw [if_pos hsnil]
      have hperfnil : s.OperationsPerformed ++ news = [] := by
        have h := hO1perm
        rw [hsnil] at h
        exact h.symm.eq_nil
      obtain ⟨honil, hnewsnil⟩ := List.append_eq_nil.mp hperfnil
      have hlz : latest0 = List.replicate s.Peers 0 := by
        rcases hinv0 with ⟨-, h⟩ | h
        · exact h
        · rw [h, honil, maxPointwise_nil]
      rw [hz hnewsnil, hlz]
    · rw [if_neg hsnil, opsGetMax_spec hO1slen hsnil]
      congr 1
      have hperm2 : maxPointwise s.Peers O1s
          = maxPointwise s.Peers (s.OperationsPerformed ++ news) :=
        maxPointwise_perm hO1perm
      by_cases hne : news = []
      · have honne : ¬ s.OperationsPerformed = [] := by
          intro hc
          exact hsnil (by
            have h := hO1perm
            rw [hc, hne] at h
            exact h.eq_nil)
        rcases hinv0 with ⟨hc, -⟩ | hmax
        · exact absurd hc honne
        · rw [hperm2, hne, List.append_nil, hz hne, hmax]
      · rw [hperm2, hnz hne]
  -- delivery 2's merged pending list equals the dominated prefix plus P1
  have hD2 : ∃ M2, mergePendingOperations req.Operations P1 = some M2
      ∧ M2 = (done.filter (fun x => decide (x ∈ req.Operations))) ++ P1 := by
    obtain ⟨M2, hM2, hM2pair, hM2mem⟩ :=
      mergePending_strong hord req.Operations P1 hR hP1len (by
        intro x hx
        rcases List.mem_append.mp hx with h | h
        · simp only [List.mem_append]; tauto
        · exact hP1sub x h)
    refine ⟨M2, hM2, ?_⟩
    have hdonepair : done.Pairwise ltOp := hMpairs.1
    have hfilterpair : (done.filter (fun x => decide (x ∈ req.Operations))).Pairwise ltOp :=
      hdonepair.filter _
    have hcatpair : ((done.filter (fun x => decide (x ∈ req.Operations))) ++ P1).Pairwise ltOp := by
      rw [List.pairwise_append]
      refine ⟨hfilterpair, hP1pair, ?_⟩
      intro x hx y hy
      exact hcross x (List.mem_of_mem_filter hx) y hy
    refine pairwise_ltOp_unique hord M2 _ ?_ ?_ hM2pair hcatpair ?_
    · intro x hx
      rcases List.mem_append.mp ((hM2mem x).mp hx) with h | h
      · simp only [List.mem_append]; tauto
      · exact hP1sub x h
    · intro x hx
      rcases List.mem_append.mp hx with h | h
      · have hd : x ∈ done := List.mem_of_mem_filter h
        refine hMsub x ?_
        rw [hsplit]
        exact List.mem_append_left P1 hd
      · exact hP1sub x h
    · intro x
      rw [hM2mem x]
      constructor
      · intro hx
        rcases List.mem_append.mp hx with h | h
        · by_cases hxP1 : x ∈ P1
          · exact List.mem_append_right _ hxP1
          · have hxM : x ∈ M := (hMmem x).mpr (List.mem_append_left _ h)
            rw [hsplit] at hxM
            rcases List.mem_append.mp hxM with h2 | h2
            · refine List.mem_append_left _ ?_
              rw [List.mem_filter]
              exact ⟨h2, by simpa using h⟩
            · exact absurd h2 hxP1
        · exact List.mem_append_right _ h
      · intro hx
        rcases List.mem_append.mp hx with h | h
        · have := List.mem_filter.mp h
          exact List.mem_append_left _ (by simpa using this.2)
        · exact List.mem_append_right _ h
  obtain ⟨M2, hM2, hM2eq⟩ := hD2
  -- delivery 2's admission loop returns the log and pending set unchanged
  have hscan2 : applyPendingLoop s.Id M2 O1s lat1 = some (O1s, lat1, P1) := by
    rw [hM2eq, applyPendingLoop_skip (n := s.Peers) s.Id _ P1 O1s lat1
          (fun x hx => hMlen x (by
            rw [hsplit]
            exact List.mem_append_left P1 (List.mem_of_mem_filter hx)))
          hlat1len
          (fun x hx => hdonecov x (List.mem_of_mem_filter hx))]
    cases hP1c : P1 with
    | nil => rfl
    | cons r0 rr =>
      obtain ⟨hnd, hoo⟩ := hstuck r0 rr hP1c
      exact applyPendingLoop_stuck (n := s.Peers) s.Id r0 rr O1s lat1
        (hP1len r0 (by rw [hP1c]; simp)) hlat1len hnd hoo
  have hsort2 : sortOps O1s = some O1s :=
    sortOps_of_sorted hord O1s hO1slen hO1ssub hO1spair
  -- put delivery 1 into canonical form and identify s1
  by_cases hsnil : O1s = []
  · have hrun1' : ReceiveGossip s req
        = some { s with PendingOperations := P1, OperationsPerformed := O1s } := by
      simp only [ReceiveGossip, if_neg hreq, hM, hlat0, hloop1, hO1s, hsnil,
                 List.getLast?_nil]
    rw [hrun1'] at hrun1
    have hs1eq : s1 = { s with PendingOperations := P1, OperationsPerformed := O1s } := by
      injection hrun1 with h
      exact h.symm
    have hs1P : s1.PendingOperations = P1 := by rw [hs1eq]
    have hs1O : s1.OperationsPerformed = O1s := by rw [hs1eq]
    have hs1Id : s1.Id = s.Id := by rw [hs1eq]
    have hs1Peers : s1.Peers = s.Peers := by rw [hs1eq]
    have hlast : O1s.getLast? = none := by rw [hsnil]; rfl
    have hgoal : ReceiveGossip s1 req
        = some { s1 with PendingOperations := P1, OperationsPerformed := O1s } := by
      simp only [ReceiveGossip, if_neg hreq, hs1P, hs1O, hs1Id, hs1Peers, hM2,
                 hlat2, hscan2, hsort2, hlast]
    rw [hgoal, hs1eq]
  · have hlastval : O1s.getLast? = some (O1s.getLast hsnil) :=
      List.getLast?_eq_getLast O1s hsnil
    have hmaxeq : operationsGetMaxVersionVector O1s = some lat1 := by
      rw [if_neg hsnil] at hlat2
      exact hlat2
    have hlatmax : lat1 = maxPointwise s.Peers O1s := by
      have h := opsGetMax_spec hO1slen hsnil
      rw [hmaxeq] at h
      injection h
    have hrun1' : ReceiveGossip s req
        = some { s with PendingOperations := P1, OperationsPerformed := O1s,
                        Data := (O1s.getLast hsnil).Data,
                        VectorClock := lat1 } := by
      rw [hlatmax]
      simp only [ReceiveGossip, if_neg hreq, hM, hlat0, hloop1, hO1s, hlastval,
                 opsGetMax_spec hO1slen hsnil]
    rw [hrun1'] at hrun1
    have hs1eq : s1 = { s with PendingOperations := P1, OperationsPerformed := O1s,
                               Data := (O1s.getLast hsnil).Data,
                               VectorClock := lat1 } := by
      injection hrun1 with h
      exact h.symm
    have hs1P : s1.PendingOperations = P1 := by rw [hs1eq]
    have hs1O : s1.OperationsPerformed = O1s := by rw [hs1eq]
    have hs1Id : s1.Id = s.Id := by rw [hs1eq]
    have hs1Peers : s1.Peers = s.Peers := by rw [hs1eq]
    have hgoal : ReceiveGossip s1 req
        = some { s1 with PendingOperations := P1, OperationsPerformed := O1s,
                         Data := (O1s.getLast hsnil).Data,
                         VectorClock := lat1 } := by
      simp only [ReceiveGossip, if_neg hreq, hs1P, hs1O, hs1Id, hs1Peers, hM2,
                 if_neg hsnil, hmaxeq, hscan2, hsort2, hlastval]
    rw [hgoal, hs1eq]

/-- Claim C7, witness for the amended theorem: replica 1 holding its own
write (`op200`) receives replica 0's gossip (`op100`) twice; the second
delivery reproduces the first delivery's state. -/
theorem C7_witness :
    OpsLen s3r1.Peers s3r1.OperationsPerformed
    ∧ OpsLen s3r1.Peers s3r1.PendingOperations
    ∧ OpsLen s3r1.Peers s3gossip0.Operations
    ∧ s3r1.OperationsPerformed.Nodup
    ∧ OrderedOn (s3gossip0.Operations ++ s3r1.PendingOperations
        ++ s3r1.OperationsPerformed)
    ∧ ReceiveGossip s3r1 s3gossip0 = some (s3final s3r1 [op200])
    ∧ ReceiveGossip (s3final s3r1 [op200]) s3gossip0 = some (s3final s3r1 [op200]) :=
  ⟨by decide, by decide, by decide, by decide, by decide, by decide,
   C7_theorem s3r1 s3gossip0 (s3final s3r1 [op200]) (by decide) (by decide)
     (by decide) (by decide) (by decide) (by decide)⟩

end SessionSemantics
